import Mathlib

/-!
Verification of the XML diff/flatten engine and the editable-tree path
indexer of the Power_XML repository.

The parsed XML node structure produced by the external `xml-js` parser is
modelled by the mutual inductive `XNode`/`XNodes`; JS records
(`Record<string, string>`, `Record<string, number>`) are modelled by
association lists written in insertion order, with `recordGet`/`recordSet`
mirroring JS property read/write; `undefined`-able fields are `Option`s.
Numbers reaching string interpolation are nonnegative integers, rendered in
decimal by `natStr`.  The progress percentage computation (floating point in
the source) is modelled by the exact integer value of the rounded rational
expression, matching `Math.round` on nonnegative values; the lemma
`progressPct_eq_round` certifies the identity with the `ℚ`-valued rounding
expression.  The worker's `while` loop is modelled with an explicit fuel
parameter that is instantiated with a provably sufficient bound.
-/

mutual

inductive XNode where
  | element (name : Option String) (attributes : List (String × String)) (children : Option XNodes) : XNode
  | text (s : Option String) : XNode
  | cdata (s : Option String) : XNode
  | other : XNode

inductive XNodes where
  | nil : XNodes
  | cons (hd : XNode) (tl : XNodes) : XNodes

end

mutual

def nodeSize : XNode → Nat
  | .element _ _ (some c) => 1 + nodesSize c
  | _ => 1

def nodesSize : XNodes → Nat
  | .nil => 0
  | .cons h t => nodeSize h + nodesSize t

end

/-- Total node count of an optional child list (`undefined` counts as empty). -/
def nodesSizeO : Option XNodes → Nat
  | none => 0
  | some ns => nodesSize ns

def XNode.isElement : XNode → Bool
  | .element _ _ _ => true
  | _ => false

/-- Children of an element node (`el.elements`), `none` for non-elements. -/
def XNode.childNodes : XNode → Option XNodes
  | .element _ _ c => c
  | _ => none

/-- Name field of an element node (`el.name`), `none` for non-elements. -/
def XNode.nameOf : XNode → Option String
  | .element n _ _ => n
  | _ => none

/-- Attribute list of an element node; the absent/empty JS attribute object is `[]`. -/
def XNode.attrsOf : XNode → List (String × String)
  | .element _ a _ => a
  | _ => []

def XNodes.toList : XNodes → List XNode
  | .nil => []
  | .cons h t => h :: t.toList

/-- First-match read of a JS record key (`rec[k]`, `undefined` as `none`). -/
def recordGet {α : Type} : List (String × α) → String → Option α
  | [], _ => none
  | (k', v) :: t, k => if k' = k then some v else recordGet t k

/-- Read with a default, modelling `(rec[k] ?? d)` / `(rec[k] || d)` for counters. -/
def recordGetD {α : Type} (l : List (String × α)) (k : String) (d : α) : α :=
  (recordGet l k).getD d

/-- Write of a JS record key (`rec[k] = v`): overwrite in place or append. -/
def recordSet {α : Type} : List (String × α) → String → α → List (String × α)
  | [], k, v => [(k, v)]
  | (k', v') :: t, k, v => if k' = k then (k', v) :: t else (k', v') :: recordSet t k v

/-- Decimal digits of `n`, most significant first, with explicit fuel. -/
def decDigits : Nat → Nat → List Char
  | 0, _ => []
  | fuel + 1, n => if n < 10 then [Nat.digitChar n] else decDigits fuel (n / 10) ++ [Nat.digitChar (n % 10)]

/-- Decimal rendering of a natural number, as JS string interpolation produces. -/
def natStr (n : Nat) : String := ⟨decDigits (n + 1) n⟩

/-- Model of `Array.prototype.join('.')` on the rendered path segments. -/
def joinDot : List String → String
  | [] => ""
  | [x] => x
  | x :: xs => x ++ "." ++ joinDot xs

/-- Model of JS `String.prototype.trim`: drop whitespace characters from both
ends of the character data. -/
def jsTrim (s : String) : String :=
  ⟨((s.data.dropWhile Char.isWhitespace).reverse.dropWhile Char.isWhitespace).reverse⟩

/-- Model of `extractText`'s accumulation loop over the direct children.  The
source appends `node.text ?? ''` for text and cdata children alike, but xml-js
stores cdata content under the `cdata` property and leaves `text` undefined on
cdata nodes, so a cdata child appends the empty string. -/
def extractTextGo : XNodes → String → String
  | .nil, out => out
  | .cons n t, out =>
    match n with
    | .text s => extractTextGo t (out ++ s.getD "")
    | .cdata _ => extractTextGo t (out ++ "")
    | _ => extractTextGo t out

/-- Model of `extractText(nodes)`: concatenate direct text/cdata content, then trim. -/
def extractText : Option XNodes → String
  | none => ""
  | some nodes => jsTrim (extractTextGo nodes "")

inductive ChangeKind where
  | added
  | removed
  | changed
  deriving DecidableEq, Repr

structure Diff where
  path : String
  leftValue : Option String
  rightValue : Option String
  change : ChangeKind
  deriving DecidableEq, Repr

structure Stats where
  added : Nat
  removed : Nat
  changed : Nat
  deriving DecidableEq, Repr

/-- Model of building a JS `Set` from a key list: deduplicate keeping first occurrences. -/
def jsSetUnion (keys : List String) : List String :=
  keys.foldl (fun acc k => if k ∈ acc then acc else acc ++ [k]) []

/-- Stable insertion of one record into a list sorted by the comparator `cmp`. -/
def sortInsert (cmp : String → String → Int) (d : Diff) : List Diff → List Diff
  | [] => [d]
  | e :: t => if cmp d.path e.path < 0 then d :: e :: t else e :: sortInsert cmp d t

/-- Model of `differences.sort((a, b) => a.path.localeCompare(b.path))`: a stable
sort by the abstract locale comparator `cmp`. -/
def sortDiffs (cmp : String → String → Int) (l : List Diff) : List Diff :=
  l.foldl (fun acc d => sortInsert cmp d acc) []

/-- Classification step of `diffMaps` for one key of the key-union set. -/
def classifyKey (left right : List (String × String)) (acc : List Diff × Stats) (key : String) : List Diff × Stats :=
  match recordGet right key with
  | none =>
      (acc.1 ++ [⟨key, recordGet left key, none, .removed⟩],
       { acc.2 with removed := acc.2.removed + 1 })
  | some rv =>
      match recordGet left key with
      | none =>
          (acc.1 ++ [⟨key, none, some rv, .added⟩],
           { acc.2 with added := acc.2.added + 1 })
      | some lv =>
          if lv ≠ rv then
            (acc.1 ++ [⟨key, some lv, some rv, .changed⟩],
             { acc.2 with changed := acc.2.changed + 1 })
          else acc

/-- Model of `diffMaps(left, right)`; `cmp` stands for `String.prototype.localeCompare`. -/
def diffMaps (cmp : String → String → Int) (left right : List (String × String)) :
    List Diff × Stats :=
  let keys := jsSetUnion (left.map Prod.fst ++ right.map Prod.fst)
  let res := keys.foldl (classifyKey left right) ([], ⟨0, 0, 0⟩)
  (sortDiffs cmp res.1, res.2)

/-- Modelled from the spec's classification rule: the unique difference record the
spec dictates for a key (used to compare `diffMaps` against the spec's words). -/
def specRecord (left right : List (String × String)) (k : String) : Option Diff :=
  match recordGet left k, recordGet right k with
  | some lv, none => some ⟨k, some lv, none, .removed⟩
  | none, some rv => some ⟨k, none, some rv, .added⟩
  | some lv, some rv => if lv ≠ rv then some ⟨k, some lv, some rv, .changed⟩ else none
  | none, none => none

structure Frame where
  elements : Option (List XNode)
  path : List String

structure LoopSt where
  stack : List Frame
  entries : List (String × String)
  processed : Nat
  lastEmit : Nat
  msgs : List (Nat × Option String)

/-- Percentage estimate posted by the flattener: `min(99, max(0, round(base + ratio * span)))`
with `ratio = processed / (processed + stackLen + 1)`.  All quantities are
nonnegative, so the `max 0` clamp is vacuous and `Math.round` (round half up)
of `base + ratio * span` is exactly `⌊(2 * (base * d + processed * span) + d) / (2 * d)⌋`
with `d = processed + stackLen + 1`; the lemma `progressPct_eq_round` below
establishes this identity against the `ℚ`-valued rounding expression. -/
def progressPct (base span processed stackLen : Nat) : Nat :=
  let d := processed + stackLen + 1
  min 99 ((2 * (base * d + processed * span) + d) / (2 * d))

/-- Mapping entries one element contributes for itself: one per attribute
(`path/@attr`), then `path/#text` when the extracted text is nonempty. -/
def ownEntries (pathString : String) (attrs : List (String × String)) (textContent : String) :
    List (String × String) :=
  (attrs.map fun av => (pathString ++ "/@" ++ av.1, av.2)) ++
    (if textContent ≠ "" then [(pathString ++ "/#text", textContent)] else [])

/-- Child batch pushed on the work stack for one element:
`el.elements?.filter((n) => n.type === 'element')` when that list is nonempty. -/
def childBatch : Option XNodes → Option (List XNode)
  | none => none
  | some c =>
      let f := c.toList.filter fun n => n.isElement
      if f.isEmpty then none else some f

/-- Body of one iteration of the `for (const el of elements)` loop of
`mapXmlToFlat` for an element node: bump the processed counter, compute the
element's rendered path, emit its own entries, push its child batch, and post a
throttled progress message. -/
def stepState (base span : Nat) (path : List String) (counts : List (String × Nat))
    (nm : Option String) (attrs : List (String × String)) (ch : Option XNodes)
    (st : LoopSt) : LoopSt :=
  let processed := st.processed + 1
  let name := nm.getD "unnamed"
  let currentIndex := recordGetD counts name 0 + 1
  let currentPath := path ++ [name ++ "[" ++ natStr currentIndex ++ "]"]
  let pathString := joinDot currentPath
  let newEntries := ownEntries pathString attrs (extractText ch)
  let stack' := match childBatch ch with
    | none => st.stack
    | some f => (⟨some f, currentPath⟩ : Frame) :: st.stack
  if 250 ≤ processed - st.lastEmit then
    { stack := stack', entries := st.entries ++ newEntries, processed := processed,
      lastEmit := processed,
      msgs := st.msgs ++
        [(progressPct base span processed stack'.length, some "Scanning elements…")] }
  else
    { stack := stack', entries := st.entries ++ newEntries, processed := processed,
      lastEmit := st.lastEmit, msgs := st.msgs }

/-- Inner `for (const el of elements)` loop of `mapXmlToFlat`: processes one
frame's sibling list, emitting entries, pushing child frames and posting
throttled progress messages. -/
def procElems (base span : Nat) (path : List String) :
    List XNode → List (String × Nat) → LoopSt → LoopSt
  | [], _, st => st
  | .element nm attrs ch :: rest, counts, st =>
      procElems base span path rest
        (recordSet counts (nm.getD "unnamed") (recordGetD counts (nm.getD "unnamed") 0 + 1))
        (stepState base span path counts nm attrs ch st)
  | _ :: rest, counts, st => procElems base span path rest counts st

/-- Outer `while (stack.length)` loop of `mapXmlToFlat`, with explicit fuel. -/
def loopGo (base span : Nat) : Nat → LoopSt → LoopSt
  | 0, st => st
  | fuel + 1, st =>
    match st.stack with
    | [] => st
    | f :: rest =>
      match f.elements with
      | none => loopGo base span fuel { st with stack := rest }
      | some els =>
          loopGo base span fuel (procElems base span f.path els [] { st with stack := rest })

structure FlattenOut where
  map : List (String × String)
  error : Option String
  msgs : List (Nat × Option String)

/-- Replay of the collector record writes, in emission order. -/
def buildRecord (entries : List (String × String)) : List (String × String) :=
  entries.foldl (fun r kv => recordSet r kv.1 kv.2) []

/-- Model of `mapXmlToFlat(xml, opts)`.  The external parser call `xml2js` is
abstracted as the already-supplied `parsed` outcome: `.error msg` when the
parser throws (caught by the `try`/`catch`, yielding an empty map and the
error), `.ok rootElements` otherwise.  The `msgs` field records the progress
notifications posted during the call, in order. -/
def mapXmlToFlat (parsed : Except String (Option XNodes)) (basePercent spanPercent : Nat) :
    FlattenOut :=
  match parsed with
  | .error e => { map := [], error := some e, msgs := [(basePercent, some "Parsing XML…")] }
  | .ok rootElements =>
      let st0 : LoopSt :=
        { stack := [⟨rootElements.map XNodes.toList, []⟩], entries := [], processed := 0,
          lastEmit := 0, msgs := [(basePercent, some "Parsing XML…")] }
      let stF := loopGo basePercent spanPercent (nodesSizeO rootElements + 1) st0
      { map := buildRecord stF.entries, error := none,
        msgs := stF.msgs ++ [(basePercent + spanPercent, some "Flatten complete")] }

inductive Phase where
  | left
  | right
  | diff
  deriving DecidableEq, Repr

inductive WMsg where
  | progress (phase : Phase) (percent : Nat) (message : Option String)
  | done (differences : List Diff) (stats : Stats)
  | error (leftError : Option String) (rightError : Option String)
  deriving DecidableEq, Repr

/-- JS truthiness of the optional error-message strings tested by
`if (left.error || right.error)`. -/
def errTruthy : Option String → Bool
  | none => false
  | some s => if s = "" then false else true

/-- Model of the worker's `onmessage` handler: the full ordered list of messages
posted for one comparison request.  The two parser outcomes stand for
`xml2js(leftXml)` / `xml2js(rightXml)`; `cmp` is the locale comparator. -/
def workerMessages (cmp : String → String → Int)
    (leftParsed rightParsed : Except String (Option XNodes)) : List WMsg :=
  let left := mapXmlToFlat leftParsed 0 45
  let right := mapXmlToFlat rightParsed 45 45
  let pre := left.msgs.map (fun m => WMsg.progress .left m.1 m.2) ++
    right.msgs.map (fun m => WMsg.progress .right m.1 m.2)
  if errTruthy left.error || errTruthy right.error then
    pre ++ [WMsg.error left.error right.error]
  else
    let r := diffMaps cmp left.map right.map
    pre ++ [WMsg.progress .diff 92 (some "Diffing…"),
      WMsg.progress .diff 99 (some "Finalizing…"), WMsg.done r.1 r.2]

/-- Percent values of the progress messages of a worker run, in posting order. -/
def progressPercents (msgs : List WMsg) : List Nat :=
  msgs.filterMap fun m => match m with
    | .progress _ p _ => some p
    | _ => none

/-- Record (if any) that one `classifyKey` step appends, in the code's branch order. -/
def classifyRecord (left right : List (String × String)) (key : String) : Option Diff :=
  match recordGet right key with
  | none => some ⟨key, recordGet left key, none, .removed⟩
  | some rv =>
      match recordGet left key with
      | none => some ⟨key, none, some rv, .added⟩
      | some lv => if lv ≠ rv then some ⟨key, some lv, some rv, .changed⟩ else none

/-- Ordinary lexicographic comparator, a concrete stand-in for `localeCompare`. -/
def strCmp (a b : String) : Int := if a < b then -1 else if a = b then 0 else 1

/-- Concrete leaf element `<a/>` used by concrete documents below. -/
def cxLeaf : XNode := .element (some "a") [] none

/-- Concrete element `<a><c/></a>` whose processing pushes one child frame. -/
def cxWith : XNode := .element (some "a") [] (some (.cons (.element (some "c") [] none) .nil))

/-- Prepend `n` copies of a node to a sibling list. -/
def cxRep : Nat → XNode → XNodes → XNodes
  | 0, _, acc => acc
  | n + 1, x, acc => .cons x (cxRep n x acc)

/-- Wrapper element `<r>…</r>` around a sibling list. -/
def cxChain (body : XNodes) : XNode := .element (some "r") [] (some body)

/-- Inner part of the concrete progress document: 252 elements each pushing a
one-element child frame, split across nested sibling lists. -/
def cxTail : XNodes :=
  cxRep 100 cxWith
    (.cons (cxChain (cxRep 100 cxWith (.cons (cxChain (cxRep 52 cxWith .nil)) .nil))) .nil)

/-- Concrete parsed document on which the worker's progress percentages are not
monotone: the first throttled emission happens with a nearly empty work stack,
the second after 252 child frames have accumulated, so the estimated ratio
drops. -/
def cxDoc : Option XNodes :=
  some (.cons (cxChain (cxRep 99 cxLeaf
    (.cons (cxChain (cxRep 99 cxLeaf
      (.cons (cxChain (cxRep 50 cxLeaf (.cons (cxChain cxTail) .nil))) .nil))) .nil))) .nil)

/-- Structured form of a key suffix: attribute reference or text reference. -/
inductive KSuffix where
  | attr (name : String) : KSuffix
  | txt : KSuffix
  deriving DecidableEq

/-- Rendering of one path segment `name[index]`. -/
def encodeSeg (g : String × Nat) : String := g.1 ++ "[" ++ natStr g.2 ++ "]"

/-- Rendering of a structured path: segments joined with dots. -/
def encodePath (segs : List (String × Nat)) : String := joinDot (segs.map encodeSeg)

def encodeSfx : KSuffix → String
  | .attr a => "/@" ++ a
  | .txt => "/#text"

/-- Rendering of a structured flat-mapping key. -/
def encodeKey (k : List (String × Nat) × KSuffix) : String := encodePath k.1 ++ encodeSfx k.2

def encodeEntry (e : (List (String × Nat) × KSuffix) × String) : String × String :=
  (encodeKey e.1, e.2)

def ofList : List XNode → XNodes
  | [] => .nil
  | h :: t => .cons h (ofList t)

/-- Structured own entries of one element at structured path `segs`. -/
def sOwn (segs : List (String × Nat)) (attrs : List (String × String)) (textContent : String) :
    List ((List (String × Nat) × KSuffix) × String) :=
  (attrs.map fun av => ((segs, KSuffix.attr av.1), av.2)) ++
    (if textContent ≠ "" then [((segs, KSuffix.txt), textContent)] else [])

mutual

/-- Structured recursive flattening of a sibling list: own entries of each element
followed by its subtree's entries, threading the per-parent sibling counters. -/
def sFlat : XNodes → List (String × Nat) → List (String × Nat) →
    List ((List (String × Nat) × KSuffix) × String)
  | .nil, _, _ => []
  | .cons (.element nm attrs ch) rest, segs, counts =>
      let name := nm.getD "unnamed"
      let idx := recordGetD counts name 0 + 1
      sOwn (segs ++ [(name, idx)]) attrs (extractText ch)
        ++ sFlatOpt ch (segs ++ [(name, idx)])
        ++ sFlat rest segs (recordSet counts name idx)
  | .cons _ rest, segs, counts => sFlat rest segs counts

def sFlatOpt : Option XNodes → List (String × Nat) →
    List ((List (String × Nat) × KSuffix) × String)
  | none, _ => []
  | some c, segs => sFlat c segs []

end

/-- Structured own entries of one sibling level, in order (no descent). -/
def levelOwn : List XNode → List (String × Nat) → List (String × Nat) →
    List ((List (String × Nat) × KSuffix) × String)
  | [], _, _ => []
  | .element nm attrs ch :: rest, segs, counts =>
      let name := nm.getD "unnamed"
      let idx := recordGetD counts name 0 + 1
      sOwn (segs ++ [(name, idx)]) attrs (extractText ch)
        ++ levelOwn rest segs (recordSet counts name idx)
  | _ :: rest, segs, counts => levelOwn rest segs counts

/-- Structured child frames pushed while processing one sibling level, in order. -/
def shadowFrames : List XNode → List (String × Nat) → List (String × Nat) →
    List (List XNode × List (String × Nat))
  | [], _, _ => []
  | .element nm _ ch :: rest, segs, counts =>
      let name := nm.getD "unnamed"
      let idx := recordGetD counts name 0 + 1
      (match childBatch ch with
        | none => []
        | some f => [(f, segs ++ [(name, idx)])])
        ++ shadowFrames rest segs (recordSet counts name idx)
  | _ :: rest, segs, counts => shadowFrames rest segs counts

/-- Loop frame corresponding to a structured shadow frame. -/
def frameOf (fs : List XNode × List (String × Nat)) : Frame :=
  ⟨some fs.1, fs.2.map encodeSeg⟩

/-- Fuel weight of a shadow stack: an upper bound on the number of loop
iterations needed to drain it. -/
def shadowWeight (shadow : List (List XNode × List (String × Nat))) : Nat :=
  (shadow.map fun fs => 1 + (fs.1.map nodeSize).sum).sum

/-- The characters `[`, `]`, `/`, `.` as named constants. -/
def lbChar : Char := Char.ofNat 91

def rbChar : Char := Char.ofNat 93

def slChar : Char := Char.ofNat 47

def dotChar : Char := Char.ofNat 46

/-- Name free of the bracket and slash delimiter characters of rendered keys;
true of every element name an XML parser can produce. -/
def goodName (s : String) : Prop :=
  lbChar ∉ s.data ∧ rbChar ∉ s.data ∧ slChar ∉ s.data

mutual

/-- Well-formedness of a parsed node, as guaranteed by the XML parser: element
and attribute names carry no bracket or slash characters and the attribute
record of one element has no duplicate keys. -/
def wfN : XNode → Prop
  | .element nm attrs ch =>
      goodName (nm.getD "unnamed") ∧ (attrs.map Prod.fst).Nodup ∧ wfO ch
  | _ => True

def wfNs : XNodes → Prop
  | .nil => True
  | .cons h t => wfN h ∧ wfNs t

def wfO : Option XNodes → Prop
  | none => True
  | some c => wfNs c

end

/-- Numeric value of a most-significant-first decimal digit list (also the model
of `parseInt` on the digit group captured by the trailing-index regex). -/
def digitsVal (ds : List Char) : Nat := ds.foldl (fun a c => 10 * a + (c.toNat - 48)) 0

def isTextOrCdata : XNode → Bool
  | .text _ => true
  | .cdata _ => true
  | _ => false

/-- The `text` property the source reads on a direct child (`n.text`): present
on text nodes only; xml-js leaves it undefined on cdata nodes, whose content
lives under the `cdata` property instead. -/
def nodeTextOpt : XNode → Option String
  | .text s => s
  | _ => none

/-- The literal content of a direct text or cdata child as the spec's words
intend it (cdata payload included); modelled from the claim, not the source. -/
def claimedText : XNode → Option String
  | .text s => s
  | .cdata s => s
  | _ => none

/-- Modelled from the spec's words for C3: the concatenation, in document order,
of the literal text of every direct text/cdata child, trimmed. -/
def specTextValue (nodes : XNodes) : String :=
  jsTrim (String.join ((nodes.toList.filter isTextOrCdata).map fun n => (nodeTextOpt n).getD ""))

/-- Spec-side value of the original C3 claim: the trimmed concatenation, in
document order, of the literal content of every direct text and cdata child. -/
def claimedTextValue (nodes : XNodes) : String :=
  jsTrim (String.join ((nodes.toList.filter isTextOrCdata).map fun n => (claimedText n).getD ""))

mutual

/-- Substitution closing C10: replace every missing element name by the literal
name `unnamed`, everywhere in the tree. -/
def forceN : XNode → XNode
  | .element nm attrs ch => .element (some (nm.getD "unnamed")) attrs (forceO ch)
  | n => n

def forceNs : XNodes → XNodes
  | .nil => .nil
  | .cons h t => .cons (forceN h) (forceNs t)

def forceO : Option XNodes → Option XNodes
  | none => none
  | some c => some (forceNs c)

end

mutual

/-- No element carries the (parser-impossible) explicit empty name. -/
def neN : XNode → Prop
  | .element nm _ ch => nm ≠ some "" ∧ neO ch
  | _ => True

def neNs : XNodes → Prop
  | .nil => True
  | .cons h t => neN h ∧ neNs t

def neO : Option XNodes → Prop
  | none => True
  | some c => neNs c

end

mutual

/-- Editable tree node of the editor (`EditableNode`). -/
inductive ENode where
  | mk (id : String) (path : String) (name : String) (value : String)
      (attributes : List (String × String)) (isText : Bool) (children : ENodes) : ENode

inductive ENodes where
  | nil : ENodes
  | cons (hd : ENode) (tl : ENodes) : ENodes

end

def ENode.id : ENode → String
  | .mk i _ _ _ _ _ _ => i

def ENode.path : ENode → String
  | .mk _ p _ _ _ _ _ => p

def ENode.name : ENode → String
  | .mk _ _ n _ _ _ _ => n

def ENode.value : ENode → String
  | .mk _ _ _ v _ _ _ => v

def ENode.attributes : ENode → List (String × String)
  | .mk _ _ _ _ a _ _ => a

def ENode.children : ENode → ENodes
  | .mk _ _ _ _ _ _ c => c

def ENode.withChildren : ENode → ENodes → ENode
  | .mk i p n v a it _, c => .mk i p n v a it c

def ENode.withName : ENode → String → ENode
  | .mk i p _ v a it c, n => .mk i p n v a it c

def ENodes.names : ENodes → List String
  | .nil => []
  | .cons h t => h.name :: t.names

def ENodes.paths : ENodes → List String
  | .nil => []
  | .cons h t => h.path :: t.paths

def ENodes.append : ENodes → ENodes → ENodes
  | .nil, ys => ys
  | .cons h t, ys => .cons h (t.append ys)

/-- Model of the JS string-falsiness name default `el.name || 'unnamed'`. -/
def jsOrName : Option String → String
  | none => "unnamed"
  | some s => if s = "" then "unnamed" else s

/-- Model of the ternary path join on a possibly empty parent path. -/
def pathJoin (parentPath seg : String) : String :=
  if parentPath = "" then seg else parentPath ++ "." ++ seg

/-- Model of `buildEditableTree`'s `forEach` loop; `fuel` is a strict bound on
the recursion depth, instantiated with the node count by `buildEditableTree`. -/
def buildETGo : Nat → List XNode → String → String → List (String × Nat) → ENodes
  | 0, _, _, _, _ => .nil
  | _ + 1, [], _, _, _ => .nil
  | fuel + 1, .element nm attrs ch :: rest, path, parentPath, counts =>
      let name := jsOrName nm
      let count := recordGetD counts name 0 + 1
      let currentPath := pathJoin path (name ++ "[" ++ natStr count ++ "]")
      let fullParentPath := if parentPath = "" then name else parentPath ++ "." ++ name
      let textValue :=
        jsTrim (String.join ((((ch.map XNodes.toList).getD []).filter isTextOrCdata).map
          fun n => (nodeTextOpt n).getD ""))
      let childElements := ((ch.map XNodes.toList).getD []).filter fun n => n.isElement
      let children := buildETGo fuel childElements currentPath fullParentPath []
      .cons (.mk currentPath currentPath name textValue attrs true children)
        (buildETGo fuel rest path parentPath (recordSet counts name count))
  | fuel + 1, _ :: rest, path, parentPath, counts => buildETGo fuel rest path parentPath counts

/-- Model of `buildEditableTree(elements, path, parentPath)`. -/
def buildEditableTree (els : List XNode) (path parentPath : String) : ENodes :=
  buildETGo ((els.map nodeSize).sum + 1) els path parentPath []

/-- Model of `buildXmlFromEditable`: each editable node becomes an element whose
child list is its (nonempty) text value followed by its serialized children. -/
def buildXmlFromEditable : ENodes → List XNode
  | .nil => []
  | .cons (.mk _ _ nm v a _ ch) t =>
      XNode.element (some nm) a
          (some (ofList ((if v ≠ "" then [XNode.text (some v)] else [])
            ++ buildXmlFromEditable ch)))
        :: buildXmlFromEditable t

mutual

def deepCloneNode : ENode → ENode
  | .mk i p n v a it ch => .mk i p n v a it (deepCloneNodes ch)

def deepCloneNodes : ENodes → ENodes
  | .nil => .nil
  | .cons h t => .cons (deepCloneNode h) (deepCloneNodes t)

end

def findNodeById : ENodes → String → Option ENode
  | .nil, _ => none
  | .cons (.mk i p nm v a it ch) t, targetId =>
      if i = targetId then some (.mk i p nm v a it ch)
      else
        match findNodeById ch targetId with
        | some found => some found
        | none => findNodeById t targetId

def findParentNodes : ENodes → String → List ENode → Option (List ENode)
  | .nil, _, _ => none
  | .cons (.mk i p nm v a it ch) t, targetId, parentList =>
      if i = targetId then some parentList
      else
        match findParentNodes ch targetId (parentList ++ [ENode.mk i p nm v a it ch]) with
        | some found => some found
        | none => findParentNodes t targetId parentList

/-- Model of `regenerateIds(nodes, parentPath, siblingCounts)`. -/
def regenerateIds : ENodes → String → List (String × Nat) → ENodes
  | .nil, _, _ => .nil
  | .cons (.mk _ _ nm v a it ch) rest, parentPath, counts =>
      let count := recordGetD counts nm 0 + 1
      let currentPath := pathJoin parentPath (nm ++ "[" ++ natStr count ++ "]")
      .cons (.mk currentPath currentPath nm v a it (regenerateIds ch currentPath []))
        (regenerateIds rest parentPath (recordSet counts nm count))

/-- Model of the name rewrite stripping one trailing bracketed-digits group. -/
def stripIndexSuffix (s : String) : String :=
  match s.data.reverse with
  | [] => s
  | c :: rest =>
      if c = rbChar then
        match rest.takeWhile Char.isDigit, rest.dropWhile Char.isDigit with
        | [], _ => s
        | _ :: _, b :: remaining => if b = lbChar then ⟨remaining.reverse⟩ else s
        | _ :: _, [] => s
      else s

/-- Model of matching the trailing bracketed-digits group of a name and parsing
the digits. -/
def matchIndexNum (s : String) : Option Nat :=
  match s.data.reverse with
  | [] => none
  | c :: rest =>
      if c = rbChar then
        match rest.takeWhile Char.isDigit, rest.dropWhile Char.isDigit with
        | [], _ => none
        | ds, b :: _ => if b = lbChar then some (digitsVal ds.reverse) else none
        | _ :: _, [] => none
      else none

/-- Character-list test that `b` starts the list `s` (model of JS
`String.prototype.startsWith`, written over the character data so that it
evaluates by plain structural recursion). -/
def strStartsGo : List Char → List Char → Bool
  | [], _ => true
  | _ :: _, [] => false
  | a :: as, b :: bs => a == b && strStartsGo as bs

/-- Model of `n.name.startsWith(base)`. -/
def strStarts (s base : String) : Bool := strStartsGo base.data s.data

/-- Model of `Math.max(0, ...numbers) + 1`'s maximum over the same-prefix
siblings, fused with the `filter` and `map` that produce `numbers`. -/
def maxSuffixNum (base : String) : ENodes → Nat
  | .nil => 0
  | .cons n t =>
      if strStarts n.name base then
        max ((matchIndexNum n.name).getD 0) (maxSuffixNum base t)
      else maxSuffixNum base t

/-- Model of the `update` closure of `duplicatePath`: at the parent node, append
the renamed deep clone of the source node and regenerate the parent's children. -/
def dupUpdate (parentId : String) (sourceNode : ENode) : ENodes → ENodes
  | .nil => .nil
  | .cons (.mk i p nm v a it ch) t =>
      if i = parentId then
        let duplicated := deepCloneNode sourceNode
        let baseName := stripIndexSuffix sourceNode.name
        let nextNum := maxSuffixNum baseName ch + 1
        let dup2 := duplicated.withName (baseName ++ natStr nextNum)
        .cons (ENode.mk i p nm v a it (regenerateIds (ch.append (.cons dup2 .nil)) p []))
          (dupUpdate parentId sourceNode t)
      else .cons (ENode.mk i p nm v a it (dupUpdate parentId sourceNode ch))
        (dupUpdate parentId sourceNode t)

/-- Model of the tree transformation of `duplicatePath(id)` (the state/UI writes
around it are omitted).  When the source node is found but has an empty parent
list (a root-level node), the source dereferences the last entry of an empty
array and throws on the property access, so no tree update takes place; this is
modelled as returning the tree unchanged.  The null-parent-list branch of the
source is unreachable when the source node was found. -/
def duplicatePath (tree : ENodes) (id : String) : ENodes :=
  match findNodeById tree id with
  | none => tree
  | some sourceNode =>
      match findParentNodes tree id [] with
      | none =>
          let duplicated := deepCloneNode sourceNode
          let baseName := stripIndexSuffix sourceNode.name
          let nextNum := maxSuffixNum baseName tree + 1
          let dup2 := duplicated.withName (baseName ++ natStr nextNum)
          regenerateIds (tree.append (.cons dup2 .nil)) "" []
      | some parentList =>
          match parentList.getLast? with
          | none => tree
          | some parent => regenerateIds (dupUpdate parent.id sourceNode tree) "" []

/-- All segment names of a structured path are delimiter-free. -/
def goodSegs (segs : List (String × Nat)) : Prop := ∀ g ∈ segs, goodName g.1

/-- Character-list tail of a rendered path after the first segment: empty, or a
dot followed by the rendering of the remaining segments. -/
def pathTail (t : List (String × Nat)) : List Char :=
  match t with
  | [] => []
  | _ :: _ => dotChar :: (encodePath t).data

/-- Frame-wise application of the missing-name substitution to a work stack. -/
def forceFrame (f : Frame) : Frame := ⟨f.elements.map (List.map forceN), f.path⟩

/-- State-wise application of the missing-name substitution (only the stack
holds parsed nodes). -/
def forceSt (st : LoopSt) : LoopSt :=
  { st with stack := st.stack.map forceFrame }

/-- Paths of the top-level editable nodes carrying a given display name. -/
def ENodes.pathsOf : ENodes → String → List String
  | .nil, _ => []
  | .cons h t, nm => (if h.name = nm then [h.path] else []) ++ t.pathsOf nm

/-- Every top-level node's name is free of the closing bracket character (true
of all names the XML parser can produce; indices live in paths, not names). -/
def ENodes.bracketFreeNames : ENodes → Prop
  | .nil => True
  | .cons h t => rbChar ∉ h.name.data ∧ t.bracketFreeNames

/-- `<a>x<![CDATA[y]]></a>` as xml-js parses it: one element with a text child
and a cdata child. -/
def cdDoc : Option XNodes :=
  some (ofList [XNode.element (some "a") []
    (some (ofList [XNode.text (some "x"), XNode.cdata (some "y")]))])

/-- A small parsed document with an attribute, text and repeated sibling names,
used to instantiate the round-trip statement. -/
def rtDoc : Option XNodes :=
  some (ofList
    [XNode.element (some "a") [("id", "1")]
      (some (ofList
        [XNode.element (some "b") [] none,
         XNode.element (some "b") [] none]))])

/-- Three same-named siblings under one root, as the editor builds them from
`<r><b/><b/><b/></r>`. -/
def dupScenarioTree : ENodes :=
  buildEditableTree
    [XNode.element (some "r") []
      (some (ofList [XNode.element (some "b") [] none, XNode.element (some "b") [] none,
        XNode.element (some "b") [] none]))] "" ""

-- ## Theorems

theorem classifyKey_fst (left right : List (String × String)) (acc : List Diff × Stats) (k : String) :
    (classifyKey left right acc k).1 = acc.1 ++ (classifyRecord left right k).toList := by
  unfold classifyKey classifyRecord
  rcases hr : recordGet right k with _ | rv
  · simp
  · rcases hl : recordGet left k with _ | lv
    · simp
    · by_cases h : lv = rv <;> simp [h]

theorem classifyKey_stats (left right : List (String × String)) (acc : List Diff × Stats) (k : String) :
    (classifyKey left right acc k).2.added
        = acc.2.added + ((classifyRecord left right k).toList.countP fun d => d.change = ChangeKind.added) ∧
      (classifyKey left right acc k).2.removed
        = acc.2.removed + ((classifyRecord left right k).toList.countP fun d => d.change = ChangeKind.removed) ∧
      (classifyKey left right acc k).2.changed
        = acc.2.changed + ((classifyRecord left right k).toList.countP fun d => d.change = ChangeKind.changed) := by
  unfold classifyKey classifyRecord
  rcases hr : recordGet right k with _ | rv
  · simp [List.countP_cons]
  · rcases hl : recordGet left k with _ | lv
    · simp [List.countP_cons]
    · by_cases h : lv = rv <;> simp [h, List.countP_cons]

theorem foldl_classifyKey (left right : List (String × String)) (keys : List String) :
    ∀ acc : List Diff × Stats,
      (keys.foldl (classifyKey left right) acc).1
          = acc.1 ++ keys.filterMap (classifyRecord left right) ∧
        (keys.foldl (classifyKey left right) acc).2.added
          = acc.2.added + ((keys.filterMap (classifyRecord left right)).countP fun d => d.change = ChangeKind.added) ∧
        (keys.foldl (classifyKey left right) acc).2.removed
          = acc.2.removed + ((keys.filterMap (classifyRecord left right)).countP fun d => d.change = ChangeKind.removed) ∧
        (keys.foldl (classifyKey left right) acc).2.changed
          = acc.2.changed + ((keys.filterMap (classifyRecord left right)).countP fun d => d.change = ChangeKind.changed) := by
  induction keys with
  | nil => intro acc; simp
  | cons k t ih =>
    intro acc
    obtain ⟨h1, h2, h3, h4⟩ := ih (classifyKey left right acc k)
    obtain ⟨s1, s2, s3⟩ := classifyKey_stats left right acc k
    refine ⟨?_, ?_, ?_, ?_⟩ <;>
      simp [List.foldl_cons, h1, h2, h3, h4, s1, s2, s3, classifyKey_fst,
        List.filterMap_cons, List.countP_append]
    all_goals rcases classifyRecord left right k with _ | d <;> simp [List.countP_cons] <;> omega

theorem progressPct_eq_round (base span p s : Nat) :
    progressPct base span p s
      = (min 99 (max 0 (round ((base : ℚ) + (p : ℚ) / ((p : ℚ) + (s : ℚ) + 1) * (span : ℚ))))).toNat := by
  have hd : ((p : ℚ) + (s : ℚ) + 1) ≠ 0 := by positivity
  have hx : (base : ℚ) + (p : ℚ) / ((p : ℚ) + (s : ℚ) + 1) * (span : ℚ) + 1 / 2
      = ((2 * (base * (p + s + 1) + p * span) + (p + s + 1) : ℕ) : ℚ)
        / ((2 * (p + s + 1) : ℕ) : ℚ) := by
    push_cast
    field_simp
    ring
  have hr : round ((base : ℚ) + (p : ℚ) / ((p : ℚ) + (s : ℚ) + 1) * (span : ℚ))
      = (((2 * (base * (p + s + 1) + p * span) + (p + s + 1)) / (2 * (p + s + 1)) : ℕ) : ℤ) := by
    rw [round_eq, hx, Rat.floor_natCast_div_natCast]
    norm_cast
  rw [hr]
  simp only [progressPct]
  generalize (2 * (base * (p + s + 1) + p * span) + (p + s + 1)) / (2 * (p + s + 1)) = q
  omega

theorem recordGet_isSome_iff {α : Type} (l : List (String × α)) (k : String) :
    (recordGet l k).isSome ↔ k ∈ l.map Prod.fst := by
  induction l with
  | nil => simp [recordGet]
  | cons h t ih =>
    obtain ⟨k', v⟩ := h
    by_cases hk : k' = k <;> simp [recordGet, hk, ih]
    exact fun h => (hk h.symm).elim

theorem mem_foldl_union (keys : List String) :
    ∀ (acc : List String) (k : String),
      k ∈ keys.foldl (fun acc k => if k ∈ acc then acc else acc ++ [k]) acc ↔ k ∈ acc ∨ k ∈ keys := by
  induction keys with
  | nil => simp
  | cons h t ih =>
    intro acc k
    by_cases hm : h ∈ acc
    · rw [List.foldl_cons, if_pos hm, ih]
      constructor
      · rintro (hk | hk)
        · exact Or.inl hk
        · exact Or.inr (List.mem_cons_of_mem _ hk)
      · rintro (hk | hk)
        · exact Or.inl hk
        · rcases List.mem_cons.mp hk with rfl | hk
          · exact Or.inl hm
          · exact Or.inr hk
    · rw [List.foldl_cons, if_neg hm, ih]
      simp only [List.mem_append, List.mem_singleton, List.mem_cons]
      tauto

theorem mem_jsSetUnion (keys : List String) (k : String) :
    k ∈ jsSetUnion keys ↔ k ∈ keys := by
  rw [jsSetUnion, mem_foldl_union]
  simp

theorem nodup_foldl_union (keys : List String) :
    ∀ acc : List String, acc.Nodup →
      (keys.foldl (fun acc k => if k ∈ acc then acc else acc ++ [k]) acc).Nodup := by
  induction keys with
  | nil => intro acc h; simpa
  | cons h t ih =>
    intro acc hacc
    by_cases hm : h ∈ acc
    · rw [List.foldl_cons, if_pos hm]; exact ih acc hacc
    · rw [List.foldl_cons, if_neg hm]
      refine ih _ ?_
      simp [List.nodup_append, hacc, hm]

theorem jsSetUnion_nodup (keys : List String) : (jsSetUnion keys).Nodup :=
  nodup_foldl_union keys [] List.nodup_nil

theorem sortInsert_perm (cmp : String → String → Int) (d : Diff) (l : List Diff) :
    (sortInsert cmp d l).Perm (d :: l) := by
  induction l with
  | nil => simp [sortInsert]
  | cons e t ih =>
    rw [sortInsert]
    by_cases h : cmp d.path e.path < 0
    · simp [h]
    · rw [if_neg h]
      exact (ih.cons e).trans (List.Perm.swap d e t)

theorem foldl_sortInsert_perm (cmp : String → String → Int) (l : List Diff) :
    ∀ acc : List Diff,
      (l.foldl (fun acc d => sortInsert cmp d acc) acc).Perm (acc ++ l) := by
  induction l with
  | nil => intro acc; simp
  | cons d t ih =>
    intro acc
    rw [List.foldl_cons]
    refine (ih (sortInsert cmp d acc)).trans ?_
    have h1 : (sortInsert cmp d acc ++ t).Perm ((d :: acc) ++ t) :=
      (sortInsert_perm cmp d acc).append_right t
    exact h1.trans List.perm_middle.symm

theorem sortDiffs_perm (cmp : String → String → Int) (l : List Diff) :
    (sortDiffs cmp l).Perm l := by
  simpa using foldl_sortInsert_perm cmp l []

theorem mem_sortInsert (cmp : String → String → Int) (d x : Diff) (l : List Diff) :
    x ∈ sortInsert cmp d l ↔ x = d ∨ x ∈ l := by
  have := @List.Perm.mem_iff _ x _ _ (sortInsert_perm cmp d l)
  simpa using this

theorem sortInsert_pairwise (cmp : String → String → Int)
    (Htot : ∀ a b : String, ¬ cmp a b < 0 → cmp b a ≤ 0)
    (Htrans : ∀ a b c : String, cmp a b ≤ 0 → cmp b c ≤ 0 → cmp a c ≤ 0)
    (d : Diff) (l : List Diff)
    (hl : l.Pairwise (fun a b => cmp a.path b.path ≤ 0)) :
    (sortInsert cmp d l).Pairwise (fun a b => cmp a.path b.path ≤ 0) := by
  induction l with
  | nil => simp [sortInsert]
  | cons e t ih =>
    rw [sortInsert]
    rcases List.pairwise_cons.mp hl with ⟨he, ht⟩
    by_cases h : cmp d.path e.path < 0
    · rw [if_pos h]
      refine List.pairwise_cons.mpr ⟨?_, hl⟩
      intro x hx
      rcases List.mem_cons.mp hx with rfl | hx
      · exact le_of_lt h
      · exact Htrans _ _ _ (le_of_lt h) (he x hx)
    · rw [if_neg h]
      refine List.pairwise_cons.mpr ⟨?_, ih ht⟩
      intro x hx
      rcases (mem_sortInsert cmp d x t).mp hx with rfl | hx
      · exact Htot _ _ h
      · exact he x hx

theorem sortDiffs_pairwise (cmp : String → String → Int)
    (Htot : ∀ a b : String, ¬ cmp a b < 0 → cmp b a ≤ 0)
    (Htrans : ∀ a b c : String, cmp a b ≤ 0 → cmp b c ≤ 0 → cmp a c ≤ 0)
    (l : List Diff) :
    (sortDiffs cmp l).Pairwise (fun a b => cmp a.path b.path ≤ 0) := by
  rw [sortDiffs]
  suffices h : ∀ acc : List Diff, acc.Pairwise (fun a b => cmp a.path b.path ≤ 0) →
      (l.foldl (fun acc d => sortInsert cmp d acc) acc).Pairwise (fun a b => cmp a.path b.path ≤ 0) by
    exact h [] (by simp)
  induction l with
  | nil => intro acc hacc; simpa
  | cons d t ih =>
    intro acc hacc
    rw [List.foldl_cons]
    exact ih _ (sortInsert_pairwise cmp Htot Htrans d acc hacc)

theorem classifyRecord_path (left right : List (String × String)) (k : String) (d : Diff)
    (h : classifyRecord left right k = some d) : d.path = k := by
  unfold classifyRecord at h
  rcases hr : recordGet right k with _ | rv <;> rw [hr] at h
  · cases h; rfl
  · rcases hl : recordGet left k with _ | lv <;> rw [hl] at h
    · cases h; rfl
    · by_cases hv : lv = rv
      · simp [hv] at h
      · simp [hv] at h
        rw [← h]

theorem classifyRecord_eq_specRecord (left right : List (String × String)) (k : String)
    (h : (recordGet left k).isSome ∨ (recordGet right k).isSome) :
    classifyRecord left right k = specRecord left right k := by
  unfold classifyRecord specRecord
  rcases hr : recordGet right k with _ | rv <;> rcases hl : recordGet left k with _ | lv <;>
    simp [hr, hl] at h ⊢

theorem filterMap_classifyRecord_paths (left right : List (String × String)) (keys : List String) :
    (keys.filterMap (classifyRecord left right)).map Diff.path
      = keys.filter (fun k => (classifyRecord left right k).isSome) := by
  induction keys with
  | nil => simp
  | cons k t ih =>
    rcases h : classifyRecord left right k with _ | d
    · simp [List.filterMap_cons, h, List.filter_cons, ih]
    · simp [List.filterMap_cons, h, List.filter_cons, ih, classifyRecord_path left right k d h]

/-- C1: for every pair of flat mappings, `diffMaps` visits each key of the union of
the two key sets exactly once (the union list is duplicate-free and each key
contributes via `filterMap` at most one record), the emitted records are exactly
those dictated by the spec's per-key priority rule (`specRecord`), and the
returned stats are the exact per-kind counts of the output records. -/
theorem diffMaps_matches_spec_classification (cmp : String → String → Int)
    (left right : List (String × String)) :
    ((diffMaps cmp left right).1).Perm
        ((jsSetUnion (left.map Prod.fst ++ right.map Prod.fst)).filterMap (specRecord left right))
      ∧ (jsSetUnion (left.map Prod.fst ++ right.map Prod.fst)).Nodup
      ∧ (diffMaps cmp left right).2.added
          = ((diffMaps cmp left right).1).countP (fun d => d.change = ChangeKind.added)
      ∧ (diffMaps cmp left right).2.removed
          = ((diffMaps cmp left right).1).countP (fun d => d.change = ChangeKind.removed)
      ∧ (diffMaps cmp left right).2.changed
          = ((diffMaps cmp left right).1).countP (fun d => d.change = ChangeKind.changed) := by
  set keys := jsSetUnion (left.map Prod.fst ++ right.map Prod.fst) with hkeys
  have hmem : ∀ k ∈ keys, (recordGet left k).isSome ∨ (recordGet right k).isSome := by
    intro k hk
    rw [hkeys, mem_jsSetUnion] at hk
    rcases List.mem_append.mp hk with hk | hk
    · exact Or.inl ((recordGet_isSome_iff left k).mpr hk)
    · exact Or.inr ((recordGet_isSome_iff right k).mpr hk)
  have hcongr : keys.filterMap (classifyRecord left right)
      = keys.filterMap (specRecord left right) :=
    List.filterMap_congr (fun k hk => classifyRecord_eq_specRecord left right k (hmem k hk))
  obtain ⟨h1, h2, h3, h4⟩ := foldl_classifyKey left right keys ([], ⟨0, 0, 0⟩)
  have hfst : (diffMaps cmp left right).1
      = sortDiffs cmp (keys.filterMap (classifyRecord left right)) := by
    simp only [diffMaps, ← hkeys, h1, List.nil_append]
  have hperm : ((diffMaps cmp left right).1).Perm (keys.filterMap (classifyRecord left right)) := by
    rw [hfst]; exact sortDiffs_perm cmp _
  have hsnd : (diffMaps cmp left right).2 = (keys.foldl (classifyKey left right) ([], ⟨0, 0, 0⟩)).2 := by
    simp only [diffMaps, ← hkeys]
  refine ⟨hcongr ▸ hperm, hkeys ▸ jsSetUnion_nodup _, ?_, ?_, ?_⟩ <;>
    rw [hsnd] <;>
    simp only [h2, h3, h4, Nat.zero_add] <;>
    exact (hperm.countP_eq _).symm

/-- C7: the records returned by `diffMaps` are sorted ascending by their path key
under the (abstract, locale-aware) comparator, provided the comparator is a total
preorder comparison, and no two returned records share a path key. -/
theorem diffMaps_sorted_and_paths_nodup (cmp : String → String → Int)
    (Htot : ∀ a b : String, ¬ cmp a b < 0 → cmp b a ≤ 0)
    (Htrans : ∀ a b c : String, cmp a b ≤ 0 → cmp b c ≤ 0 → cmp a c ≤ 0)
    (left right : List (String × String)) :
    ((diffMaps cmp left right).1).Pairwise (fun a b => cmp a.path b.path ≤ 0)
      ∧ (((diffMaps cmp left right).1).map Diff.path).Nodup := by
  set keys := jsSetUnion (left.map Prod.fst ++ right.map Prod.fst) with hkeys
  obtain ⟨h1, _, _, _⟩ := foldl_classifyKey left right keys ([], ⟨0, 0, 0⟩)
  have hfst : (diffMaps cmp left right).1
      = sortDiffs cmp (keys.filterMap (classifyRecord left right)) := by
    simp only [diffMaps, ← hkeys, h1, List.nil_append]
  constructor
  · rw [hfst]; exact sortDiffs_pairwise cmp Htot Htrans _
  · have hperm : (((diffMaps cmp left right).1).map Diff.path).Perm
        ((keys.filterMap (classifyRecord left right)).map Diff.path) := by
      rw [hfst]; exact (sortDiffs_perm cmp _).map _
    rw [hperm.nodup_iff, filterMap_classifyRecord_paths]
    exact (hkeys ▸ jsSetUnion_nodup _).filter _

theorem strCmp_total (a b : String) : ¬ strCmp a b < 0 → strCmp b a ≤ 0 := by
  intro h
  unfold strCmp at h ⊢
  rcases lt_trichotomy a b with hab | hab | hab
  · simp [hab] at h
  · simp [hab.symm, if_neg (lt_irrefl b)]
  · simp [hab, ne_of_gt hab]

theorem strCmp_trans (a b c : String) : strCmp a b ≤ 0 → strCmp b c ≤ 0 → strCmp a c ≤ 0 := by
  unfold strCmp
  intro h1 h2
  by_cases hab : a < b
  · by_cases hbc : b < c
    · simp [lt_trans hab hbc]
    · by_cases hbc' : b = c
      · simp [hbc' ▸ hab]
      · simp [hbc, hbc'] at h2
  · by_cases hab' : a = b
    · subst hab'
      exact h2
    · simp [hab, hab'] at h1

/-- Witness for C7: the comparator hypotheses are discharged for the concrete
lexicographic comparator `strCmp` on a concrete pair of mappings. -/
theorem diffMaps_sorted_and_paths_nodup_witness :
    ((diffMaps strCmp [("a", "1"), ("b", "2")] [("b", "3"), ("c", "4")]).1).Pairwise
        (fun a b => strCmp a.path b.path ≤ 0)
      ∧ (((diffMaps strCmp [("a", "1"), ("b", "2")] [("b", "3"), ("c", "4")]).1).map Diff.path).Nodup :=
  diffMaps_sorted_and_paths_nodup strCmp strCmp_total strCmp_trans _ _

theorem mapXmlToFlat_parse_error (e : String) (base span : Nat) :
    mapXmlToFlat (Except.error e) base span
      = { map := [], error := some e, msgs := [(base, some "Parsing XML…")] } := rfl

/-- C4: when at least one side fails to parse (with the parser's nonempty message),
the failed side's flatten call returns an empty map together with the parser's
message, the other side's flatten call still runs (both flatten message blocks
appear, in order), the terminal message is a single error message carrying each
side's error independently, and no diff result (`done` message) is ever produced. -/
theorem worker_parse_error_handling (cmp : String → String → Int)
    (lp rp : Except String (Option XNodes))
    (herr : (∃ e, lp = Except.error e) ∨ (∃ e, rp = Except.error e))
    (hmsg : ∀ e : String, lp = Except.error e ∨ rp = Except.error e → e ≠ "") :
    (∀ e, lp = Except.error e →
        (mapXmlToFlat lp 0 45).map = [] ∧ (mapXmlToFlat lp 0 45).error = some e)
      ∧ (∀ e, rp = Except.error e →
        (mapXmlToFlat rp 45 45).map = [] ∧ (mapXmlToFlat rp 45 45).error = some e)
      ∧ workerMessages cmp lp rp
          = (mapXmlToFlat lp 0 45).msgs.map (fun m => WMsg.progress Phase.left m.1 m.2)
            ++ ((mapXmlToFlat rp 45 45).msgs.map (fun m => WMsg.progress Phase.right m.1 m.2)
            ++ [WMsg.error (mapXmlToFlat lp 0 45).error (mapXmlToFlat rp 45 45).error])
      ∧ ∀ d s, WMsg.done d s ∉ workerMessages cmp lp rp := by
  have hok : ∀ ns : Option XNodes, ∀ base span : Nat,
      (mapXmlToFlat (Except.ok ns) base span).error = none := by
    intro ns base span; rfl
  have hcond : (errTruthy (mapXmlToFlat lp 0 45).error
      || errTruthy (mapXmlToFlat rp 45 45).error) = true := by
    rcases herr with ⟨e, he⟩ | ⟨e, he⟩
    · subst he
      have hne : e ≠ "" := hmsg e (Or.inl rfl)
      simp [mapXmlToFlat_parse_error, errTruthy, hne]
    · subst he
      have hne : e ≠ "" := hmsg e (Or.inr rfl)
      simp [mapXmlToFlat_parse_error, errTruthy, hne]
  have hrun : workerMessages cmp lp rp
      = (mapXmlToFlat lp 0 45).msgs.map (fun m => WMsg.progress Phase.left m.1 m.2)
        ++ ((mapXmlToFlat rp 45 45).msgs.map (fun m => WMsg.progress Phase.right m.1 m.2)
        ++ [WMsg.error (mapXmlToFlat lp 0 45).error (mapXmlToFlat rp 45 45).error]) := by
    simp only [workerMessages, hcond, if_true, List.append_assoc]
  refine ⟨?_, ?_, hrun, ?_⟩
  · intro e he; subst he; exact ⟨rfl, rfl⟩
  · intro e he; subst he; exact ⟨rfl, rfl⟩
  · intro d s
    rw [hrun]
    simp

/-- Witness for C4 at a concrete failing left parse and succeeding right parse. -/
theorem worker_parse_error_handling_witness :
    ((∃ e, (Except.error "Unexpected end" : Except String (Option XNodes)) = Except.error e)
        ∨ (∃ e, (Except.ok (some XNodes.nil) : Except String (Option XNodes)) = Except.error e))
      ∧ (∀ d s, WMsg.done d s ∉
          workerMessages strCmp (Except.error "Unexpected end") (Except.ok (some XNodes.nil))) := by
  refine ⟨Or.inl ⟨"Unexpected end", rfl⟩, ?_⟩
  have h := worker_parse_error_handling strCmp (Except.error "Unexpected end")
    (Except.ok (some XNodes.nil)) (Or.inl ⟨"Unexpected end", rfl⟩)
    (by intro e he; rcases he with he | he
        · cases he; decide
        · cases he)
  exact h.2.2.2

theorem progressPct_le_99 (base span p l : Nat) : progressPct base span p l ≤ 99 := by
  simp only [progressPct]
  exact Nat.min_le_left _ _

theorem procElems_msgs_le (b s : Nat) (path : List String) (els : List XNode) :
    ∀ (counts : List (String × Nat)) (st : LoopSt), (∀ m ∈ st.msgs, m.1 ≤ 99) →
      ∀ m ∈ (procElems b s path els counts st).msgs, m.1 ≤ 99 := by
  induction els with
  | nil => intro counts st h; simpa [procElems] using h
  | cons el rest ih =>
    intro counts st h
    cases el with
    | element nm attrs ch =>
      rw [procElems]
      refine ih _ _ ?_
      rw [stepState]
      by_cases hc : 250 ≤ st.processed + 1 - st.lastEmit
      · simp only [if_pos hc, List.mem_append, List.mem_singleton]
        rintro m (hm | rfl)
        · exact h m hm
        · exact progressPct_le_99 _ _ _ _
      · simp only [if_neg hc]
        exact h
    | text s' =>
      show ∀ m ∈ (procElems b s path rest counts st).msgs, m.1 ≤ 99
      exact ih _ _ h
    | cdata s' =>
      show ∀ m ∈ (procElems b s path rest counts st).msgs, m.1 ≤ 99
      exact ih _ _ h
    | other =>
      show ∀ m ∈ (procElems b s path rest counts st).msgs, m.1 ≤ 99
      exact ih _ _ h

theorem loopGo_msgs_le (b s : Nat) :
    ∀ (fuel : Nat) (st : LoopSt), (∀ m ∈ st.msgs, m.1 ≤ 99) →
      ∀ m ∈ (loopGo b s fuel st).msgs, m.1 ≤ 99 := by
  intro fuel
  induction fuel with
  | zero => intro st h; simpa [loopGo] using h
  | succ n ih =>
    intro st h
    obtain ⟨stack, entries, processed, lastEmit, msgs⟩ := st
    cases stack with
    | nil => exact h
    | cons f rest =>
      obtain ⟨fels, fpath⟩ := f
      cases fels with
      | none => exact ih _ h
      | some els => exact ih _ (procElems_msgs_le b s fpath els [] _ h)

theorem mapXmlToFlat_msgs_le (parsed : Except String (Option XNodes)) (b s : Nat)
    (hb : b ≤ 99) (hbs : b + s ≤ 99) :
    ∀ m ∈ (mapXmlToFlat parsed b s).msgs, m.1 ≤ 99 := by
  cases parsed with
  | error e =>
    intro m hm
    simp only [mapXmlToFlat, List.mem_singleton] at hm
    subst hm
    exact hb
  | ok root =>
    intro m hm
    simp only [mapXmlToFlat, List.mem_append, List.mem_singleton] at hm
    rcases hm with hm | rfl
    · refine loopGo_msgs_le b s _ _ ?_ m hm
      intro m' hm'
      simp only [List.mem_singleton] at hm'
      subst hm'
      exact hb
    · exact hbs

theorem progressPercents_append (a b : List WMsg) :
    progressPercents (a ++ b) = progressPercents a ++ progressPercents b := by
  simp [progressPercents]

theorem progressPercents_map_progress (ph : Phase) (l : List (Nat × Option String)) :
    progressPercents (l.map fun m => WMsg.progress ph m.1 m.2) = l.map Prod.fst := by
  induction l with
  | nil => rfl
  | cons h t ih => simp [progressPercents] at ih ⊢; exact ih

theorem mapXmlToFlat_ok_error (ns : Option XNodes) (b s : Nat) :
    (mapXmlToFlat (Except.ok ns) b s).error = none := rfl

set_option maxRecDepth 100000 in
/-- C6 counterexample: on the concrete request (`cxDoc`, empty document), the
posted percent sequence is `[0, 45, 30, 44, 45, 45, 90, 92, 99]` — it is not
monotonically non-decreasing (45 is followed by 30) and it never reaches 100,
even though the request completes successfully. -/
theorem worker_progress_counterexample :
    progressPercents (workerMessages strCmp (Except.ok cxDoc) (Except.ok (some XNodes.nil)))
        = [0, 45, 30, 44, 45, 45, 90, 92, 99]
      ∧ ¬ List.Chain' (· ≤ ·)
          (progressPercents (workerMessages strCmp (Except.ok cxDoc) (Except.ok (some XNodes.nil))))
      ∧ 100 ∉ progressPercents (workerMessages strCmp (Except.ok cxDoc) (Except.ok (some XNodes.nil)))
      ∧ (∃ d s, WMsg.done d s ∈ workerMessages strCmp (Except.ok cxDoc) (Except.ok (some XNodes.nil))) := by
  have h : progressPercents (workerMessages strCmp (Except.ok cxDoc) (Except.ok (some XNodes.nil)))
      = [0, 45, 30, 44, 45, 45, 90, 92, 99] := by rfl
  refine ⟨h, ?_, ?_, ?_⟩
  · rw [h]
    intro hc
    simp [List.chain'_cons] at hc
  · rw [h]; decide
  · have hm : WMsg.done
        (diffMaps strCmp (mapXmlToFlat (Except.ok cxDoc) 0 45).map
          (mapXmlToFlat (Except.ok (some XNodes.nil)) 45 45).map).1
        (diffMaps strCmp (mapXmlToFlat (Except.ok cxDoc) 0 45).map
          (mapXmlToFlat (Except.ok (some XNodes.nil)) 45 45).map).2
        ∈ workerMessages strCmp (Except.ok cxDoc) (Except.ok (some XNodes.nil)) := by
      rw [workerMessages]
      simp [mapXmlToFlat_ok_error, errTruthy]
    exact ⟨_, _, hm⟩

/-- C6 (amended): for every comparison request, every posted progress percent lies
in `[0, 99]` — in particular 100 is never reported — and when both sides flatten
without a (truthy) error, the message stream ends with a `diff` progress message
carrying percent 99 immediately followed by the single terminal `done` message.
The percent sequence is not monotonically non-decreasing in general
(`worker_progress_counterexample`). -/
theorem worker_progress_bounded_final (cmp : String → String → Int)
    (lp rp : Except String (Option XNodes)) :
    (∀ p ∈ progressPercents (workerMessages cmp lp rp), p ≤ 99)
      ∧ (errTruthy (mapXmlToFlat lp 0 45).error = false →
         errTruthy (mapXmlToFlat rp 45 45).error = false →
         ∃ pre d s, workerMessages cmp lp rp
           = pre ++ [WMsg.progress Phase.diff 99 (some "Finalizing…"), WMsg.done d s]) := by
  constructor
  · intro p hp
    simp only [workerMessages] at hp
    have hleft : ∀ q ∈ (mapXmlToFlat lp 0 45).msgs.map Prod.fst, q ≤ 99 := by
      intro q hq
      obtain ⟨m, hm, rfl⟩ := List.mem_map.mp hq
      exact mapXmlToFlat_msgs_le lp 0 45 (by omega) (by omega) m hm
    have hright : ∀ q ∈ (mapXmlToFlat rp 45 45).msgs.map Prod.fst, q ≤ 99 := by
      intro q hq
      obtain ⟨m, hm, rfl⟩ := List.mem_map.mp hq
      exact mapXmlToFlat_msgs_le rp 45 45 (by omega) (by omega) m hm
    split at hp <;>
      rw [progressPercents_append, progressPercents_append,
        progressPercents_map_progress, progressPercents_map_progress] at hp <;>
      simp only [List.mem_append, progressPercents, List.filterMap_cons, List.filterMap_nil,
        List.mem_cons, List.not_mem_nil, or_false] at hp
    · rcases hp with hp | hp
      · exact hleft p hp
      · exact hright p hp
    · rcases hp with (hp | hp) | rfl | rfl
      · exact hleft p hp
      · exact hright p hp
      · omega
      · omega
  · intro hl hr
    refine ⟨(mapXmlToFlat lp 0 45).msgs.map (fun m => WMsg.progress Phase.left m.1 m.2)
        ++ ((mapXmlToFlat rp 45 45).msgs.map (fun m => WMsg.progress Phase.right m.1 m.2)
        ++ [WMsg.progress Phase.diff 92 (some "Diffing…")]),
      (diffMaps cmp (mapXmlToFlat lp 0 45).map (mapXmlToFlat rp 45 45).map).1,
      (diffMaps cmp (mapXmlToFlat lp 0 45).map (mapXmlToFlat rp 45 45).map).2, ?_⟩
    simp only [workerMessages, hl, hr, Bool.or_self, Bool.false_eq_true, if_false,
      List.append_assoc, List.cons_append, List.nil_append]

/-- Witness for C6 (amended) at a concrete successfully-parsing request. -/
theorem worker_progress_bounded_final_witness :
    (∀ p ∈ progressPercents
        (workerMessages strCmp (Except.ok (some XNodes.nil)) (Except.ok (some XNodes.nil))), p ≤ 99)
      ∧ ∃ pre d s,
          workerMessages strCmp (Except.ok (some XNodes.nil)) (Except.ok (some XNodes.nil))
            = pre ++ [WMsg.progress Phase.diff 99 (some "Finalizing…"), WMsg.done d s] := by
  obtain ⟨h1, h2⟩ := worker_progress_bounded_final strCmp
    (Except.ok (some XNodes.nil)) (Except.ok (some XNodes.nil))
  exact ⟨h1, h2 rfl rfl⟩

theorem decDigits_canon : ∀ f n : Nat, n < f → decDigits f n = decDigits (n + 1) n := by
  intro f
  induction f using Nat.strong_induction_on with
  | _ f ih =>
    intro n h
    cases f with
    | zero => omega
    | succ f =>
      by_cases h10 : n < 10
      · rw [decDigits, decDigits]
        simp [h10]
      · have hdiv : n / 10 < n := Nat.div_lt_self (by omega) (by omega)
        rw [decDigits, if_neg h10]
        conv_rhs => rw [decDigits, if_neg h10]
        rw [ih f (by omega) (n / 10) (by omega), ih n (by omega) (n / 10) hdiv]

theorem digitChar_isDigit (n : Nat) (h : n < 10) : (Nat.digitChar n).isDigit = true := by
  interval_cases n <;> decide

theorem decDigits_chars : ∀ f n : Nat, ∀ c ∈ decDigits f n, c.isDigit = true := by
  intro f
  induction f with
  | zero => intro n c hc; simp [decDigits] at hc
  | succ f ih =>
    intro n c hc
    rw [decDigits] at hc
    by_cases h10 : n < 10
    · rw [if_pos h10] at hc
      simp only [List.mem_singleton] at hc
      subst hc
      exact digitChar_isDigit n h10
    · rw [if_neg h10] at hc
      rcases List.mem_append.mp hc with hc | hc
      · exact ih (n / 10) c hc
      · simp only [List.mem_singleton] at hc
        subst hc
        exact digitChar_isDigit (n % 10) (Nat.mod_lt n (by omega))

theorem digitChar_val (n : Nat) (h : n < 10) : (Nat.digitChar n).toNat - 48 = n := by
  interval_cases n <;> decide

theorem digitsVal_decDigits : ∀ f n : Nat, n < f → digitsVal (decDigits f n) = n := by
  intro f
  induction f with
  | zero => intro n h; omega
  | succ f ih =>
    intro n h
    rw [decDigits]
    by_cases h10 : n < 10
    · rw [if_pos h10]
      simp only [digitsVal, List.foldl_cons, List.foldl_nil, Nat.mul_zero, Nat.zero_add]
      exact digitChar_val n h10
    · have hdiv : n / 10 < n := Nat.div_lt_self (by omega) (by omega)
      rw [if_neg h10]
      simp only [digitsVal, List.foldl_append, List.foldl_cons, List.foldl_nil]
      have hih := ih (n / 10) (by omega)
      simp only [digitsVal] at hih
      rw [hih, digitChar_val (n % 10) (Nat.mod_lt n (by omega))]
      omega

theorem natStr_inj (m n : Nat) (h : natStr m = natStr n) : m = n := by
  have hd : decDigits (m + 1) m = decDigits (n + 1) n := congrArg String.data h
  have h1 := digitsVal_decDigits (m + 1) m (by omega)
  have h2 := digitsVal_decDigits (n + 1) n (by omega)
  rw [← h1, ← h2, hd]

theorem natStr_chars (n : Nat) : ∀ c ∈ (natStr n).data, c.isDigit = true :=
  fun c hc => decDigits_chars (n + 1) n c hc

theorem isDigit_ne_special (c : Char) (h : c.isDigit = true) :
    c ≠ lbChar ∧ c ≠ rbChar ∧ c ≠ slChar ∧ c ≠ dotChar := by
  refine ⟨?_, ?_, ?_, ?_⟩ <;> rintro rfl <;> exact absurd h (by decide)

theorem str_data_append (a b : String) : (a ++ b).data = a.data ++ b.data := rfl

theorem str_ext {a b : String} (h : a.data = b.data) : a = b := by
  cases a; cases b; exact congrArg String.mk h

theorem split_at_char (x : Char) : ∀ a1 a2 r1 r2 : List Char,
    (∀ c ∈ a1, c ≠ x) → (∀ c ∈ a2, c ≠ x) →
    a1 ++ x :: r1 = a2 ++ x :: r2 → a1 = a2 ∧ r1 = r2 := by
  intro a1
  induction a1 with
  | nil =>
    intro a2 r1 r2 h1 h2 heq
    cases a2 with
    | nil => simpa using heq
    | cons c t =>
      simp only [List.nil_append, List.cons_append, List.cons.injEq] at heq
      exact absurd heq.1.symm (h2 c (by simp))
  | cons c t ih =>
    intro a2 r1 r2 h1 h2 heq
    cases a2 with
    | nil =>
      simp only [List.cons_append, List.nil_append, List.cons.injEq] at heq
      exact absurd heq.1 (h1 c (by simp))
    | cons c' t' =>
      simp only [List.cons_append, List.cons.injEq] at heq
      obtain ⟨rfl, heq⟩ := heq
      obtain ⟨ht, hr⟩ := ih t' r1 r2 (fun d hd => h1 d (by simp [hd])) (fun d hd => h2 d (by simp [hd])) heq
      exact ⟨by rw [ht], hr⟩

theorem encodeSeg_data (n : String) (i : Nat) :
    (encodeSeg (n, i)).data = n.data ++ lbChar :: ((natStr i).data ++ [rbChar]) := by
  show (n ++ "[" ++ natStr i ++ "]").data = _
  rw [str_data_append, str_data_append, str_data_append]
  simp [lbChar, rbChar]

theorem joinDot_cons₂ (x y : String) (xs : List String) :
    joinDot (x :: y :: xs) = x ++ "." ++ joinDot (y :: xs) := rfl

theorem encodePath_cons_data (g : String × Nat) (t : List (String × Nat)) :
    (encodePath (g :: t)).data
      = g.1.data ++ lbChar :: ((natStr g.2).data ++ rbChar :: pathTail t) := by
  obtain ⟨n, i⟩ := g
  cases t with
  | nil =>
    show (joinDot [encodeSeg (n, i)]).data = _
    rw [joinDot, encodeSeg_data]
    simp [pathTail]
  | cons g' t' =>
    show (joinDot (encodeSeg (n, i) :: encodeSeg g' :: t'.map encodeSeg)).data = _
    rw [joinDot_cons₂, str_data_append, str_data_append, encodeSeg_data]
    have hdot : ("." : String).data = [dotChar] := rfl
    simp [pathTail, hdot, encodePath]
    decide

theorem goodName_no_lb (n : String) (h : goodName n) : ∀ c ∈ n.data, c ≠ lbChar :=
  fun c hc he => h.1 (he ▸ hc)

theorem encodePath_inj : ∀ s1 s2 : List (String × Nat), goodSegs s1 → goodSegs s2 →
    encodePath s1 = encodePath s2 → s1 = s2 := by
  intro s1
  induction s1 with
  | nil =>
    intro s2 h1 h2 heq
    cases s2 with
    | nil => rfl
    | cons g t =>
      have hd := congrArg String.data heq
      rw [encodePath_cons_data] at hd
      rw [show (encodePath []).data = [] from rfl] at hd
      obtain ⟨-, h2⟩ := List.append_eq_nil.mp hd.symm
      cases h2
  | cons g t ih =>
    intro s2 h1 h2 heq
    cases s2 with
    | nil =>
      have hd := congrArg String.data heq
      rw [encodePath_cons_data] at hd
      rw [show (encodePath []).data = [] from rfl] at hd
      obtain ⟨-, h2⟩ := List.append_eq_nil.mp hd
      cases h2
    | cons g' t' =>
      have hd := congrArg String.data heq
      rw [encodePath_cons_data, encodePath_cons_data] at hd
      have hg : goodName g.1 := h1 g (by simp)
      have hg' : goodName g'.1 := h2 g' (by simp)
      obtain ⟨hn, hrest⟩ := split_at_char lbChar _ _ _ _
        (goodName_no_lb g.1 hg) (goodName_no_lb g'.1 hg') hd
      have hdig : ∀ c ∈ (natStr g.2).data, c ≠ rbChar :=
        fun c hc => (isDigit_ne_special c (natStr_chars g.2 c hc)).2.1
      have hdig' : ∀ c ∈ (natStr g'.2).data, c ≠ rbChar :=
        fun c hc => (isDigit_ne_special c (natStr_chars g'.2 c hc)).2.1
      obtain ⟨hi, htail⟩ := split_at_char rbChar _ _ _ _ hdig hdig' hrest
      have hgeq : g = g' := by
        obtain ⟨n, i⟩ := g
        obtain ⟨n', i'⟩ := g'
        simp only [Prod.mk.injEq]
        exact ⟨str_ext hn, natStr_inj i i' (str_ext hi)⟩
      have hteq : t = t' := by
        cases t with
        | nil =>
          cases t' with
          | nil => rfl
          | cons a b => simp [pathTail] at htail
        | cons a b =>
          cases t' with
          | nil => simp [pathTail] at htail
          | cons a' b' =>
            simp only [pathTail, List.cons.injEq] at htail
            exact ih (a' :: b') (fun x hx => h1 x (by simp [hx]))
              (fun x hx => h2 x (by simp [hx])) (str_ext htail.2)
      rw [hgeq, hteq]

theorem encodePath_no_slash : ∀ s : List (String × Nat), goodSegs s →
    ∀ c ∈ (encodePath s).data, c ≠ slChar := by
  intro s
  induction s with
  | nil =>
    intro _ c hc
    rw [show (encodePath []).data = [] from rfl] at hc
    cases hc
  | cons g t ih =>
    intro hs c hc
    rw [encodePath_cons_data] at hc
    have hg : goodName g.1 := hs g (by simp)
    rcases List.mem_append.mp hc with hc | hc
    · exact fun he => hg.2.2 (he ▸ hc)
    · rcases List.mem_cons.mp hc with rfl | hc
      · decide
      · rcases List.mem_append.mp hc with hc | hc
        · exact (isDigit_ne_special c (natStr_chars g.2 c hc)).2.2.1
        · rcases List.mem_cons.mp hc with rfl | hc
          · decide
          · cases t with
            | nil => simp [pathTail] at hc
            | cons a b =>
              simp only [pathTail] at hc
              rcases List.mem_cons.mp hc with rfl | hc
              · decide
              · exact ih (fun x hx => hs x (by simp [hx])) c hc

theorem encodeSfx_head : ∀ x : KSuffix, ∃ t, (encodeSfx x).data = slChar :: t := by
  intro x
  cases x with
  | attr a => exact ⟨Char.ofNat 64 :: a.data, rfl⟩
  | txt => exact ⟨[Char.ofNat 35, Char.ofNat 116, Char.ofNat 101, Char.ofNat 120, Char.ofNat 116], rfl⟩

theorem encodeKey_inj (p1 p2 : List (String × Nat)) (x1 x2 : KSuffix)
    (h1 : goodSegs p1) (h2 : goodSegs p2)
    (h : encodeKey (p1, x1) = encodeKey (p2, x2)) : p1 = p2 ∧ x1 = x2 := by
  have hd := congrArg String.data h
  rw [show (encodeKey (p1, x1)).data = (encodePath p1).data ++ (encodeSfx x1).data
      from str_data_append _ _,
    show (encodeKey (p2, x2)).data = (encodePath p2).data ++ (encodeSfx x2).data
      from str_data_append _ _] at hd
  obtain ⟨t1, ht1⟩ := encodeSfx_head x1
  obtain ⟨t2, ht2⟩ := encodeSfx_head x2
  rw [ht1, ht2] at hd
  obtain ⟨hp, ht⟩ := split_at_char slChar _ _ _ _
    (encodePath_no_slash p1 h1) (encodePath_no_slash p2 h2) hd
  refine ⟨encodePath_inj p1 p2 h1 h2 (str_ext hp), ?_⟩
  cases x1 with
  | attr a =>
    cases x2 with
    | attr b =>
      have : Char.ofNat 64 :: a.data = Char.ofNat 64 :: b.data := by
        rw [show t1 = Char.ofNat 64 :: a.data by
            have := ht1; simp only [encodeSfx] at this; exact (List.cons.inj this).2.symm] at ht
        rw [show t2 = Char.ofNat 64 :: b.data by
            have := ht2; simp only [encodeSfx] at this; exact (List.cons.inj this).2.symm] at ht
        exact ht
      exact congrArg KSuffix.attr (str_ext (List.cons.inj this).2)
    | txt =>
      exfalso
      rw [show t1 = Char.ofNat 64 :: a.data by
          have := ht1; simp only [encodeSfx] at this; exact (List.cons.inj this).2.symm,
        show t2 = [Char.ofNat 35, Char.ofNat 116, Char.ofNat 101, Char.ofNat 120, Char.ofNat 116] by
          have := ht2; simp only [encodeSfx] at this; exact (List.cons.inj this).2.symm] at ht
      have := (List.cons.inj ht).1
      exact absurd this (by decide)
  | txt =>
    cases x2 with
    | attr b =>
      exfalso
      rw [show t1 = [Char.ofNat 35, Char.ofNat 116, Char.ofNat 101, Char.ofNat 120, Char.ofNat 116] by
          have := ht1; simp only [encodeSfx] at this; exact (List.cons.inj this).2.symm,
        show t2 = Char.ofNat 64 :: b.data by
          have := ht2; simp only [encodeSfx] at this; exact (List.cons.inj this).2.symm] at ht
      have := (List.cons.inj ht).1
      exact absurd this (by decide)
    | txt => rfl

theorem recordGetD_set {α : Type} (l : List (String × α)) (k k' : String) (v : α) (d : α) :
    recordGetD (recordSet l k v) k' d = if k = k' then v else recordGetD l k' d := by
  induction l with
  | nil =>
    by_cases h : k = k' <;> simp [recordSet, recordGet, recordGetD, h]
  | cons p t ih =>
    obtain ⟨pk, pv⟩ := p
    by_cases hpk : pk = k
    · subst hpk
      by_cases h : pk = k' <;> simp [recordSet, recordGet, recordGetD, h]
    · by_cases h : pk = k'
      · subst h
        have hkk : ¬ k = pk := fun he => hpk he.symm
        simp [recordSet, recordGet, recordGetD, hpk, hkk]
      · simp only [recordSet, if_neg hpk, recordGetD, recordGet, if_neg h]
        simpa [recordGetD] using ih

theorem sOwn_path (segs : List (String × Nat)) (attrs : List (String × String)) (t : String) :
    ∀ e ∈ sOwn segs attrs t, e.1.1 = segs := by
  intro e he
  rcases List.mem_append.mp he with he | he
  · obtain ⟨av, _, rfl⟩ := List.mem_map.mp he
    rfl
  · by_cases ht : t ≠ "" <;> simp [ht] at he
    subst he
    rfl

mutual

theorem sFlat_shape : (ns : XNodes) → ∀ (segs : List (String × Nat)) (counts : List (String × Nat)),
    ∀ e ∈ sFlat ns segs counts,
      ∃ n c tail, e.1.1 = segs ++ (n, c) :: tail ∧ recordGetD counts n 0 < c
  | .nil => by
      intro segs counts e he
      cases he
  | .cons (.element nm attrs ch) rest => by
      intro segs counts e he
      have he' : e ∈ (sOwn (segs ++ [(nm.getD "unnamed", recordGetD counts (nm.getD "unnamed") 0 + 1)]) attrs (extractText ch)
          ++ sFlatOpt ch (segs ++ [(nm.getD "unnamed", recordGetD counts (nm.getD "unnamed") 0 + 1)]))
          ++ sFlat rest segs (recordSet counts (nm.getD "unnamed") (recordGetD counts (nm.getD "unnamed") 0 + 1)) := he
      rcases List.mem_append.mp he' with hm | hm
      · rcases List.mem_append.mp hm with hm | hm
        · exact ⟨nm.getD "unnamed", recordGetD counts (nm.getD "unnamed") 0 + 1, [],
            by rw [sOwn_path _ _ _ e hm], by omega⟩
        · obtain ⟨n', c', tail', h1, _⟩ := sFlatOpt_shape ch _ e hm
          refine ⟨nm.getD "unnamed", recordGetD counts (nm.getD "unnamed") 0 + 1,
            (n', c') :: tail', ?_, by omega⟩
          rw [h1]
          simp
      · obtain ⟨n, c, tail, h1, h2⟩ := sFlat_shape rest segs _ e hm
        refine ⟨n, c, tail, h1, ?_⟩
        rw [recordGetD_set] at h2
        by_cases hn : nm.getD "unnamed" = n
        · rw [if_pos hn] at h2
          subst hn
          omega
        · rwa [if_neg hn] at h2
  | .cons (.text s) rest => by
      intro segs counts e he
      exact sFlat_shape rest segs counts e he
  | .cons (.cdata s) rest => by
      intro segs counts e he
      exact sFlat_shape rest segs counts e he
  | .cons .other rest => by
      intro segs counts e he
      exact sFlat_shape rest segs counts e he

theorem sFlatOpt_shape : (ch : Option XNodes) → ∀ segs : List (String × Nat),
    ∀ e ∈ sFlatOpt ch segs,
      ∃ n c tail, e.1.1 = segs ++ (n, c) :: tail ∧ 0 < c
  | none => by
      intro segs e he
      cases he
  | some c => by
      intro segs e he
      obtain ⟨n, cc, tail, h1, h2⟩ := sFlat_shape c segs [] e he
      exact ⟨n, cc, tail, h1, by omega⟩

end

theorem sOwn_keys_nodup (segs : List (String × Nat)) (attrs : List (String × String)) (t : String)
    (hattrs : (attrs.map Prod.fst).Nodup) :
    ((sOwn segs attrs t).map Prod.fst).Nodup := by
  rw [sOwn, List.map_append]
  refine List.Nodup.append ?_ ?_ ?_
  · rw [show (attrs.map fun av => ((segs, KSuffix.attr av.1), av.2)).map Prod.fst
        = (attrs.map Prod.fst).map fun a => (segs, KSuffix.attr a) by
      simp [List.map_map]]
    exact hattrs.map (fun a b hab => by
      simpa using congrArg (fun q => q.2) hab)
  · by_cases ht : t ≠ "" <;> simp [ht]
  · intro k hk1 hk2
    obtain ⟨e, he, rfl⟩ := List.mem_map.mp hk1
    obtain ⟨av, hav, rfl⟩ := List.mem_map.mp he
    by_cases ht : t ≠ "" <;> simp [ht] at hk2

mutual

theorem sFlat_good : (ns : XNodes) → ∀ (segs counts : List (String × Nat)), wfNs ns →
    goodSegs segs → ∀ e ∈ sFlat ns segs counts, goodSegs e.1.1
  | .nil => by
      intro segs counts _ _ e he
      cases he
  | .cons (.element nm attrs ch) rest => by
      intro segs counts hwf hsegs e he
      obtain ⟨⟨hname, hattrs, hch⟩, hrest⟩ := hwf
      have hsegs' : goodSegs (segs ++ [(nm.getD "unnamed", recordGetD counts (nm.getD "unnamed") 0 + 1)]) := by
        intro g hg
        rcases List.mem_append.mp hg with hg | hg
        · exact hsegs g hg
        · simp only [List.mem_singleton] at hg
          subst hg
          exact hname
      have he' : e ∈ (sOwn (segs ++ [(nm.getD "unnamed", recordGetD counts (nm.getD "unnamed") 0 + 1)]) attrs (extractText ch)
          ++ sFlatOpt ch (segs ++ [(nm.getD "unnamed", recordGetD counts (nm.getD "unnamed") 0 + 1)]))
          ++ sFlat rest segs (recordSet counts (nm.getD "unnamed") (recordGetD counts (nm.getD "unnamed") 0 + 1)) := he
      rcases List.mem_append.mp he' with hm | hm
      · rcases List.mem_append.mp hm with hm | hm
        · rw [sOwn_path _ _ _ e hm]
          exact hsegs'
        · exact sFlatOpt_good ch _ hch hsegs' e hm
      · exact sFlat_good rest segs _ hrest hsegs e hm
  | .cons (.text s) rest => by
      intro segs counts hwf hsegs e he
      exact sFlat_good rest segs counts hwf.2 hsegs e he
  | .cons (.cdata s) rest => by
      intro segs counts hwf hsegs e he
      exact sFlat_good rest segs counts hwf.2 hsegs e he
  | .cons .other rest => by
      intro segs counts hwf hsegs e he
      exact sFlat_good rest segs counts hwf.2 hsegs e he

theorem sFlatOpt_good : (ch : Option XNodes) → ∀ segs : List (String × Nat), wfO ch →
    goodSegs segs → ∀ e ∈ sFlatOpt ch segs, goodSegs e.1.1
  | none => by
      intro segs _ _ e he
      cases he
  | some c => by
      intro segs hwf hsegs e he
      exact sFlat_good c segs [] hwf hsegs e he

end

theorem seg_head_ne {segs : List (String × Nat)} {a b : String × Nat} {x y : List (String × Nat)}
    (h : segs ++ a :: x = segs ++ b :: y) : a = b :=
  (List.cons.inj (List.append_cancel_left h)).1

mutual

theorem sFlat_nodup : (ns : XNodes) → ∀ (segs counts : List (String × Nat)), wfNs ns →
    ((sFlat ns segs counts).map Prod.fst).Nodup
  | .nil => by
      intro segs counts _
      exact List.nodup_nil
  | .cons (.element nm attrs ch) rest => by
      intro segs counts hwf
      obtain ⟨⟨hname, hattrs, hch⟩, hrest⟩ := hwf
      have hmap : (sFlat (.cons (.element nm attrs ch) rest) segs counts).map Prod.fst
          = ((sOwn (segs ++ [(nm.getD "unnamed", recordGetD counts (nm.getD "unnamed") 0 + 1)]) attrs (extractText ch)).map Prod.fst
            ++ (sFlatOpt ch (segs ++ [(nm.getD "unnamed", recordGetD counts (nm.getD "unnamed") 0 + 1)])).map Prod.fst)
            ++ (sFlat rest segs (recordSet counts (nm.getD "unnamed") (recordGetD counts (nm.getD "unnamed") 0 + 1))).map Prod.fst := by
        rw [show sFlat (.cons (.element nm attrs ch) rest) segs counts
            = (sOwn (segs ++ [(nm.getD "unnamed", recordGetD counts (nm.getD "unnamed") 0 + 1)]) attrs (extractText ch)
              ++ sFlatOpt ch (segs ++ [(nm.getD "unnamed", recordGetD counts (nm.getD "unnamed") 0 + 1)]))
              ++ sFlat rest segs (recordSet counts (nm.getD "unnamed") (recordGetD counts (nm.getD "unnamed") 0 + 1)) from rfl,
          List.map_append, List.map_append]
      rw [hmap]
      refine List.Nodup.append (List.Nodup.append ?_ ?_ ?_) ?_ ?_
      · exact sOwn_keys_nodup _ attrs _ hattrs
      · exact sFlatOpt_nodup ch _ hch
      · intro k hk1 hk2
        obtain ⟨e, he, rfl⟩ := List.mem_map.mp hk1
        obtain ⟨e', he', hke⟩ := List.mem_map.mp hk2
        obtain ⟨n', c', tail', hsh, -⟩ := sFlatOpt_shape ch _ e' he'
        have hp := sOwn_path _ attrs _ e he
        rw [← hke] at hp
        rw [hsh] at hp
        have : ((n', c') :: tail' : List (String × Nat)) = [] := by
          have h2 := List.append_cancel_left
            (show (segs ++ [(nm.getD "unnamed", recordGetD counts (nm.getD "unnamed") 0 + 1)]) ++ ((n', c') :: tail')
                = (segs ++ [(nm.getD "unnamed", recordGetD counts (nm.getD "unnamed") 0 + 1)]) ++ [] by
              rw [List.append_nil]; exact hp)
          exact h2
        cases this
      · exact sFlat_nodup rest segs _ hrest
      · intro k hk1 hk2
        obtain ⟨e', he', hke⟩ := List.mem_map.mp hk2
        obtain ⟨n', c', tail', hsh, hcnt⟩ := sFlat_shape rest segs _ e' he'
        rw [recordGetD_set] at hcnt
        have hfirst : ∃ t0, k.1 = segs ++ (nm.getD "unnamed", recordGetD counts (nm.getD "unnamed") 0 + 1) :: t0 := by
          rcases List.mem_append.mp hk1 with hk | hk
          · obtain ⟨e, he, rfl⟩ := List.mem_map.mp hk
            exact ⟨[], by rw [sOwn_path _ attrs _ e he]⟩
          · obtain ⟨e, he, rfl⟩ := List.mem_map.mp hk
            obtain ⟨n2, c2, tail2, hsh2, -⟩ := sFlatOpt_shape ch _ e he
            exact ⟨(n2, c2) :: tail2, by rw [hsh2]; simp⟩
        obtain ⟨t0, ht0⟩ := hfirst
        rw [← hke, hsh] at ht0
        have hhead := seg_head_ne ht0
        have hn : n' = nm.getD "unnamed" := congrArg Prod.fst hhead
        rw [if_pos hn.symm] at hcnt
        have hc : c' = recordGetD counts (nm.getD "unnamed") 0 + 1 := congrArg Prod.snd hhead
        omega
  | .cons (.text s) rest => by
      intro segs counts hwf
      exact sFlat_nodup rest segs counts hwf.2
  | .cons (.cdata s) rest => by
      intro segs counts hwf
      exact sFlat_nodup rest segs counts hwf.2
  | .cons .other rest => by
      intro segs counts hwf
      exact sFlat_nodup rest segs counts hwf.2

theorem sFlatOpt_nodup : (ch : Option XNodes) → ∀ segs : List (String × Nat), wfO ch →
    ((sFlatOpt ch segs).map Prod.fst).Nodup
  | none => by
      intro segs _
      exact List.nodup_nil
  | some c => by
      intro segs hwf
      exact sFlat_nodup c segs [] hwf

end

theorem toList_size : (c : XNodes) → ((c.toList.map nodeSize).sum = nodesSize c)
  | .nil => rfl
  | .cons h t => by
      simp only [XNodes.toList, List.map_cons, List.sum_cons, toList_size t]
      rfl

theorem ofList_toList : (c : XNodes) → ofList c.toList = c
  | .nil => rfl
  | .cons h t => by
      simp only [XNodes.toList, ofList, ofList_toList t]

theorem sum_map_filter_le (p : XNode → Bool) (l : List XNode) :
    (((l.filter p).map nodeSize).sum) ≤ ((l.map nodeSize).sum) := by
  induction l with
  | nil => simp
  | cons h t ih =>
    by_cases hp : p h
    · simp only [List.filter_cons, hp, if_true, List.map_cons, List.sum_cons]
      omega
    · simp only [List.filter_cons, hp, Bool.false_eq_true, if_false, List.map_cons, List.sum_cons]
      omega

theorem nodeSize_pos : (n : XNode) → 0 < nodeSize n
  | .element _ _ (some c) => by show 0 < 1 + nodesSize c; omega
  | .element _ _ none => Nat.one_pos
  | .text _ => Nat.one_pos
  | .cdata _ => Nat.one_pos
  | .other => Nat.one_pos

theorem sFlat_skip (segs counts : List (String × Nat)) : ∀ l : List XNode,
    sFlat (ofList (l.filter fun n => n.isElement)) segs counts = sFlat (ofList l) segs counts := by
  intro l
  induction l generalizing counts with
  | nil => rfl
  | cons h t ih =>
    cases h with
    | element nm attrs ch =>
      simp only [List.filter_cons, XNode.isElement, if_true, ofList]
      show sFlat (.cons (.element nm attrs ch) (ofList (t.filter fun n => n.isElement))) segs counts
          = sFlat (.cons (.element nm attrs ch) (ofList t)) segs counts
      rw [show ∀ r : XNodes, sFlat (.cons (.element nm attrs ch) r) segs counts
          = (sOwn (segs ++ [(nm.getD "unnamed", recordGetD counts (nm.getD "unnamed") 0 + 1)]) attrs (extractText ch)
            ++ sFlatOpt ch (segs ++ [(nm.getD "unnamed", recordGetD counts (nm.getD "unnamed") 0 + 1)]))
            ++ sFlat r segs (recordSet counts (nm.getD "unnamed") (recordGetD counts (nm.getD "unnamed") 0 + 1))
          from fun r => rfl]
      rw [ih]
      rfl
    | text s => simpa [List.filter_cons, XNode.isElement, ofList] using ih counts
    | cdata s => simpa [List.filter_cons, XNode.isElement, ofList] using ih counts
    | other => simpa [List.filter_cons, XNode.isElement, ofList] using ih counts

theorem sFlat_no_elements : (c : XNodes) → ∀ segs counts : List (String × Nat),
    (∀ n ∈ c.toList, ¬ n.isElement = true) → sFlat c segs counts = []
  | .nil => by intro _ _ _; rfl
  | .cons (.element nm attrs ch) t => by
      intro segs counts hall
      exact absurd rfl (hall (.element nm attrs ch) (by simp [XNodes.toList]))
  | .cons (.text s) t => by
      intro segs counts hall
      exact sFlat_no_elements t segs counts (fun n hn => hall n (by simp [XNodes.toList, hn]))
  | .cons (.cdata s) t => by
      intro segs counts hall
      exact sFlat_no_elements t segs counts (fun n hn => hall n (by simp [XNodes.toList, hn]))
  | .cons .other t => by
      intro segs counts hall
      exact sFlat_no_elements t segs counts (fun n hn => hall n (by simp [XNodes.toList, hn]))

theorem sFlatOpt_childBatch (ch : Option XNodes) (segs : List (String × Nat)) :
    sFlatOpt ch segs
      = match childBatch ch with
        | none => []
        | some f => sFlat (ofList f) segs [] := by
  cases ch with
  | none => rfl
  | some c =>
    show sFlat c segs []
        = match childBatch (some c) with
          | none => []
          | some f => sFlat (ofList f) segs []
    by_cases he : (c.toList.filter fun n => n.isElement).isEmpty
    · have hcb : childBatch (some c) = none := by
        show (if (c.toList.filter fun n => n.isElement).isEmpty then none
          else some (c.toList.filter fun n => n.isElement)) = none
        rw [he]
        rfl
      rw [hcb]
      exact sFlat_no_elements c segs [] (fun n hn hne => by
        have h0 : (c.toList.filter fun n => n.isElement) = [] := List.isEmpty_iff.mp he
        have hmem : n ∈ c.toList.filter fun n => n.isElement := List.mem_filter.mpr ⟨hn, hne⟩
        rw [h0] at hmem
        cases hmem)
    · have hcb : childBatch (some c) = some (c.toList.filter fun n => n.isElement) := by
        show (if (c.toList.filter fun n => n.isElement).isEmpty then none
          else some (c.toList.filter fun n => n.isElement)) = _
        rw [Bool.not_eq_true _ |>.mp he]
        rfl
      rw [hcb]
      exact (by rw [sFlat_skip, ofList_toList] :
        sFlat (ofList (c.toList.filter fun n => n.isElement)) segs [] = sFlat c segs []).symm

theorem sOwn_encode (segs : List (String × Nat)) (attrs : List (String × String)) (t : String) :
    (sOwn segs attrs t).map encodeEntry = ownEntries (encodePath segs) attrs t := by
  rw [sOwn, ownEntries, List.map_append]
  congr 1
  · rw [List.map_map]
    refine List.map_congr_left ?_
    intro av _
    show (encodePath segs ++ ("/@" ++ av.1), av.2) = (encodePath segs ++ "/@" ++ av.1, av.2)
    rw [← String.append_assoc]
  · by_cases ht : t ≠ ""
    · rw [if_pos ht, if_pos ht]
      rfl
    · rw [if_neg ht, if_neg ht]
      rfl

theorem stepState_entries (b s : Nat) (path : List String) (counts : List (String × Nat))
    (nm : Option String) (attrs : List (String × String)) (ch : Option XNodes) (st : LoopSt) :
    (stepState b s path counts nm attrs ch st).entries
      = st.entries ++ ownEntries
          (joinDot (path ++ [(nm.getD "unnamed") ++ "[" ++ natStr (recordGetD counts (nm.getD "unnamed") 0 + 1) ++ "]"]))
          attrs (extractText ch) := by
  rw [stepState]
  by_cases hc : 250 ≤ st.processed + 1 - st.lastEmit
  · rw [if_pos hc]
  · rw [if_neg hc]

theorem stepState_stack (b s : Nat) (path : List String) (counts : List (String × Nat))
    (nm : Option String) (attrs : List (String × String)) (ch : Option XNodes) (st : LoopSt) :
    (stepState b s path counts nm attrs ch st).stack
      = (match childBatch ch with
          | none => st.stack
          | some f => (⟨some f, path ++ [(nm.getD "unnamed") ++ "[" ++ natStr (recordGetD counts (nm.getD "unnamed") 0 + 1) ++ "]"]⟩ : Frame) :: st.stack) := by
  rw [stepState]
  by_cases hc : 250 ≤ st.processed + 1 - st.lastEmit
  · rw [if_pos hc]
  · rw [if_neg hc]

theorem encodeSeg_map_append (segs : List (String × Nat)) (g : String × Nat) :
    (segs.map encodeSeg) ++ [g.1 ++ "[" ++ natStr g.2 ++ "]"] = (segs ++ [g]).map encodeSeg := by
  rw [List.map_append]
  rfl

theorem procElems_run (b s : Nat) (els : List XNode) :
    ∀ (segs : List (String × Nat)) (counts : List (String × Nat)) (st : LoopSt),
      ((procElems b s (segs.map encodeSeg) els counts st).entries
          = st.entries ++ (levelOwn els segs counts).map encodeEntry)
        ∧ ((procElems b s (segs.map encodeSeg) els counts st).stack
          = ((shadowFrames els segs counts).map frameOf).reverse ++ st.stack) := by
  induction els with
  | nil =>
    intro segs counts st
    exact ⟨by simp [procElems, levelOwn], by simp [procElems, shadowFrames]⟩
  | cons el rest ih =>
    intro segs counts st
    cases el with
    | element nm attrs ch =>
      rw [show procElems b s (segs.map encodeSeg) (XNode.element nm attrs ch :: rest) counts st
          = procElems b s (segs.map encodeSeg) rest
              (recordSet counts (nm.getD "unnamed") (recordGetD counts (nm.getD "unnamed") 0 + 1))
              (stepState b s (segs.map encodeSeg) counts nm attrs ch st) from rfl]
      obtain ⟨ihe, ihs⟩ := ih segs
        (recordSet counts (nm.getD "unnamed") (recordGetD counts (nm.getD "unnamed") 0 + 1))
        (stepState b s (segs.map encodeSeg) counts nm attrs ch st)
      constructor
      · rw [ihe, stepState_entries]
        rw [show levelOwn (XNode.element nm attrs ch :: rest) segs counts
            = sOwn (segs ++ [(nm.getD "unnamed", recordGetD counts (nm.getD "unnamed") 0 + 1)]) attrs (extractText ch)
              ++ levelOwn rest segs (recordSet counts (nm.getD "unnamed") (recordGetD counts (nm.getD "unnamed") 0 + 1)) from rfl]
        rw [List.map_append, sOwn_encode, List.append_assoc]
        congr 2
        rw [encodeSeg_map_append segs (nm.getD "unnamed", recordGetD counts (nm.getD "unnamed") 0 + 1)]
        rfl
      · rw [ihs, stepState_stack]
        rw [show shadowFrames (XNode.element nm attrs ch :: rest) segs counts
            = (match childBatch ch with
                | none => []
                | some f => [(f, segs ++ [(nm.getD "unnamed", recordGetD counts (nm.getD "unnamed") 0 + 1)])])
              ++ shadowFrames rest segs (recordSet counts (nm.getD "unnamed") (recordGetD counts (nm.getD "unnamed") 0 + 1)) from rfl]
        cases hcb : childBatch ch with
        | none => simp
        | some f =>
          simp only [List.map_append, List.reverse_append, List.append_assoc]
          congr 1
          simp [frameOf, encodeSeg_map_append segs (nm.getD "unnamed", recordGetD counts (nm.getD "unnamed") 0 + 1)]
    | text s' => exact ih segs counts st
    | cdata s' => exact ih segs counts st
    | other => exact ih segs counts st

theorem shadowWeight_append (a b : List (List XNode × List (String × Nat))) :
    shadowWeight (a ++ b) = shadowWeight a + shadowWeight b := by
  simp [shadowWeight]

theorem shadowWeight_le (els : List XNode) : ∀ segs counts : List (String × Nat),
    shadowWeight (shadowFrames els segs counts) ≤ (els.map nodeSize).sum := by
  induction els with
  | nil => intro segs counts; simp [shadowFrames, shadowWeight]
  | cons el rest ih =>
    intro segs counts
    cases el with
    | element nm attrs ch =>
      rw [show shadowFrames (XNode.element nm attrs ch :: rest) segs counts
          = (match childBatch ch with
              | none => []
              | some f => [(f, segs ++ [(nm.getD "unnamed", recordGetD counts (nm.getD "unnamed") 0 + 1)])])
            ++ shadowFrames rest segs (recordSet counts (nm.getD "unnamed") (recordGetD counts (nm.getD "unnamed") 0 + 1)) from rfl,
        shadowWeight_append]
      have hpush : shadowWeight (match childBatch ch with
          | none => ([] : List (List XNode × List (String × Nat)))
          | some f => [(f, segs ++ [(nm.getD "unnamed", recordGetD counts (nm.getD "unnamed") 0 + 1)])])
          ≤ nodeSize (XNode.element nm attrs ch) := by
        cases ch with
        | none =>
          rw [show childBatch none = none from rfl]
          simp [shadowWeight, nodeSize_pos]
        | some c =>
          by_cases he : (c.toList.filter fun n => n.isElement).isEmpty
          · rw [show childBatch (some c) = none by
              show (if (c.toList.filter fun n => n.isElement).isEmpty then none
                else some (c.toList.filter fun n => n.isElement)) = none
              rw [he]
              rfl]
            simp [shadowWeight, nodeSize_pos]
          · rw [show childBatch (some c) = some (c.toList.filter fun n => n.isElement) by
              show (if (c.toList.filter fun n => n.isElement).isEmpty then none
                else some (c.toList.filter fun n => n.isElement)) = _
              rw [Bool.not_eq_true _ |>.mp he]
              rfl]
            have h1 := sum_map_filter_le (fun n => n.isElement) c.toList
            rw [toList_size c] at h1
            rw [show nodeSize (XNode.element nm attrs (some c)) = 1 + nodesSize c from rfl]
            simp only [shadowWeight, List.map_cons, List.map_nil, List.sum_cons, List.sum_nil]
            omega
      have hr := ih segs (recordSet counts (nm.getD "unnamed") (recordGetD counts (nm.getD "unnamed") 0 + 1))
      rw [List.map_cons, List.sum_cons]
      omega
    | text s' =>
      have hr := ih segs counts
      rw [List.map_cons, List.sum_cons]
      rw [show shadowFrames (XNode.text s' :: rest) segs counts = shadowFrames rest segs counts from rfl]
      omega
    | cdata s' =>
      have hr := ih segs counts
      rw [List.map_cons, List.sum_cons]
      rw [show shadowFrames (XNode.cdata s' :: rest) segs counts = shadowFrames rest segs counts from rfl]
      omega
    | other =>
      have hr := ih segs counts
      rw [List.map_cons, List.sum_cons]
      rw [show shadowFrames (XNode.other :: rest) segs counts = shadowFrames rest segs counts from rfl]
      omega

theorem sFlat_decomp (els : List XNode) : ∀ segs counts : List (String × Nat),
    (sFlat (ofList els) segs counts).Perm
      (levelOwn els segs counts
        ++ ((shadowFrames els segs counts).map fun fs => sFlat (ofList fs.1) fs.2 []).flatten) := by
  induction els with
  | nil => intro segs counts; simp [ofList, sFlat, levelOwn, shadowFrames]
  | cons el rest ih =>
    intro segs counts
    cases el with
    | element nm attrs ch =>
      rw [show sFlat (ofList (XNode.element nm attrs ch :: rest)) segs counts
          = (sOwn (segs ++ [(nm.getD "unnamed", recordGetD counts (nm.getD "unnamed") 0 + 1)]) attrs (extractText ch)
            ++ sFlatOpt ch (segs ++ [(nm.getD "unnamed", recordGetD counts (nm.getD "unnamed") 0 + 1)]))
            ++ sFlat (ofList rest) segs (recordSet counts (nm.getD "unnamed") (recordGetD counts (nm.getD "unnamed") 0 + 1)) from rfl]
      rw [show levelOwn (XNode.element nm attrs ch :: rest) segs counts
          = sOwn (segs ++ [(nm.getD "unnamed", recordGetD counts (nm.getD "unnamed") 0 + 1)]) attrs (extractText ch)
            ++ levelOwn rest segs (recordSet counts (nm.getD "unnamed") (recordGetD counts (nm.getD "unnamed") 0 + 1)) from rfl]
      rw [show shadowFrames (XNode.element nm attrs ch :: rest) segs counts
          = (match childBatch ch with
              | none => []
              | some f => [(f, segs ++ [(nm.getD "unnamed", recordGetD counts (nm.getD "unnamed") 0 + 1)])])
            ++ shadowFrames rest segs (recordSet counts (nm.getD "unnamed") (recordGetD counts (nm.getD "unnamed") 0 + 1)) from rfl]
      rw [sFlatOpt_childBatch ch (segs ++ [(nm.getD "unnamed", recordGetD counts (nm.getD "unnamed") 0 + 1)])]
      rw [List.map_append, List.flatten_append]
      have hM : (match childBatch ch with
            | none => ([] : List ((List (String × Nat) × KSuffix) × String))
            | some f => sFlat (ofList f) (segs ++ [(nm.getD "unnamed", recordGetD counts (nm.getD "unnamed") 0 + 1)]) [])
          = ((match childBatch ch with
              | none => ([] : List (List XNode × List (String × Nat)))
              | some f => [(f, segs ++ [(nm.getD "unnamed", recordGetD counts (nm.getD "unnamed") 0 + 1)])]).map
            fun fs : List XNode × List (String × Nat) => sFlat (ofList fs.1) fs.2 []).flatten := by
        cases childBatch ch <;> simp
      rw [← hM]
      have hF := ih segs (recordSet counts (nm.getD "unnamed") (recordGetD counts (nm.getD "unnamed") 0 + 1))
      refine ((List.Perm.append_left _ hF).trans ?_)
      rw [List.append_assoc, List.append_assoc]
      refine List.Perm.append_left _ ?_
      exact List.perm_append_comm_assoc _ _ _
    | text s' => exact ih segs counts
    | cdata s' => exact ih segs counts
    | other => exact ih segs counts

theorem shadowWeight_reverse (l : List (List XNode × List (String × Nat))) :
    shadowWeight l.reverse = shadowWeight l := by
  simp [shadowWeight, List.map_reverse, List.sum_reverse]

theorem loopGo_perm (b s : Nat) : ∀ (fuel : Nat)
    (shadow : List (List XNode × List (String × Nat))) (st : LoopSt),
    st.stack = shadow.map frameOf →
    shadowWeight shadow ≤ fuel →
    ((loopGo b s fuel st).entries).Perm
      (st.entries ++ (((shadow.map fun fs => sFlat (ofList fs.1) fs.2 []).flatten).map encodeEntry)) := by
  intro fuel
  induction fuel using Nat.strong_induction_on with
  | _ fuel ih =>
    intro shadow st hstack hw
    cases shadow with
    | nil =>
      have hs : st.stack = [] := by simpa using hstack
      have hid : loopGo b s fuel st = st := by
        cases fuel with
        | zero => rfl
        | succ f => rw [loopGo, hs]
      rw [hid]
      simp
    | cons fs rest =>
      obtain ⟨els, segs⟩ := fs
      have hw1 : 1 ≤ shadowWeight ((els, segs) :: rest) := by
        simp [shadowWeight]
        omega
      cases fuel with
      | zero => omega
      | succ f =>
        have hstep : loopGo b s (f + 1) st
            = loopGo b s f (procElems b s (segs.map encodeSeg) els []
                { st with stack := rest.map frameOf }) := by
          rw [loopGo, hstack]
          rfl
        rw [hstep]
        obtain ⟨hpe, hps⟩ := procElems_run b s els segs [] { st with stack := rest.map frameOf }
        have hstack1 : (procElems b s (segs.map encodeSeg) els []
            { st with stack := rest.map frameOf }).stack
            = ((shadowFrames els segs []).reverse ++ rest).map frameOf := by
          rw [hps]
          simp [List.map_append, List.map_reverse]
        have hw2 : shadowWeight ((shadowFrames els segs []).reverse ++ rest) ≤ f := by
          rw [shadowWeight_append, shadowWeight_reverse]
          have h2 := shadowWeight_le els segs []
          have hw' : 1 + (els.map nodeSize).sum + shadowWeight rest ≤ f + 1 := by
            simpa [shadowWeight] using hw
          omega
        have hmain := ih f (by omega) _ _ hstack1 hw2
        refine hmain.trans ?_
        rw [hpe]
        rw [show ({ st with stack := rest.map frameOf } : LoopSt).entries = st.entries from rfl]
        rw [List.append_assoc]
        refine List.Perm.append_left _ ?_
        rw [List.map_append, List.flatten_append, List.map_append]
        rw [show (((els, segs) :: rest).map fun fs => sFlat (ofList fs.1) fs.2 [])
            = sFlat (ofList els) segs [] :: (rest.map fun fs => sFlat (ofList fs.1) fs.2 []) from rfl]
        rw [List.flatten_cons, List.map_append]
        have hA : ((((shadowFrames els segs []).reverse.map fun fs => sFlat (ofList fs.1) fs.2 []).flatten).map encodeEntry).Perm
            ((((shadowFrames els segs []).map fun fs => sFlat (ofList fs.1) fs.2 []).flatten).map encodeEntry) := by
          refine List.Perm.map _ (List.Perm.flatten ?_)
          rw [List.map_reverse]
          exact List.reverse_perm _
        have hsf : ((sFlat (ofList els) segs []).map encodeEntry).Perm
            (((levelOwn els segs []).map encodeEntry)
              ++ ((((shadowFrames els segs []).map fun fs => sFlat (ofList fs.1) fs.2 []).flatten).map encodeEntry)) := by
          rw [← List.map_append]
          exact (sFlat_decomp els segs []).map _
        refine List.Perm.trans ?_ (List.Perm.append_right _ hsf.symm)
        rw [List.append_assoc]
        exact List.Perm.append_left _ (List.Perm.append_right _ hA)

theorem flattenLoop_entries_perm (root : Option XNodes) (b s : Nat) :
    ((loopGo b s (nodesSizeO root + 1)
        { stack := [⟨root.map XNodes.toList, []⟩], entries := [], processed := 0, lastEmit := 0,
          msgs := [(b, some "Parsing XML…")] }).entries).Perm
      ((sFlatOpt root []).map encodeEntry) := by
  cases root with
  | none =>
    rw [show loopGo b s (nodesSizeO none + 1)
        { stack := [⟨(none : Option XNodes).map XNodes.toList, []⟩], entries := [], processed := 0,
          lastEmit := 0, msgs := [(b, some "Parsing XML…")] }
        = { stack := [], entries := [], processed := 0, lastEmit := 0,
            msgs := [(b, some "Parsing XML…")] } from rfl]
    exact List.Perm.refl _
  | some ns =>
    have h := loopGo_perm b s (nodesSizeO (some ns) + 1) [(ns.toList, [])]
      { stack := [⟨(some ns).map XNodes.toList, []⟩], entries := [], processed := 0, lastEmit := 0,
        msgs := [(b, some "Parsing XML…")] }
      (by rfl)
      (by
        rw [show shadowWeight [(ns.toList, [])] = 1 + (ns.toList.map nodeSize).sum by
          simp [shadowWeight]]
        rw [toList_size]
        rw [show nodesSizeO (some ns) = nodesSize ns from rfl]
        omega)
    refine h.trans ?_
    rw [show (([(ns.toList, ([] : List (String × Nat)))].map fun fs => sFlat (ofList fs.1) fs.2 []).flatten)
        = sFlat (ofList ns.toList) [] [] ++ [] from rfl]
    rw [ofList_toList]
    simp [sFlatOpt]

theorem recordSet_fresh {α : Type} (acc : List (String × α)) (k : String) (v : α)
    (h : k ∉ acc.map Prod.fst) : recordSet acc k v = acc ++ [(k, v)] := by
  induction acc with
  | nil => rfl
  | cons p t ih =>
    obtain ⟨pk, pv⟩ := p
    have hpk : pk ≠ k := by
      intro he
      exact h (by simp [he])
    rw [show recordSet ((pk, pv) :: t) k v = (pk, pv) :: recordSet t k v by
      rw [recordSet, if_neg hpk]]
    rw [ih (fun hm => h (by simp [hm]))]
    rfl

theorem foldl_recordSet_eq (entries : List (String × String)) :
    ∀ acc : List (String × String),
      (acc.map Prod.fst ++ entries.map Prod.fst).Nodup →
      entries.foldl (fun r kv => recordSet r kv.1 kv.2) acc = acc ++ entries := by
  induction entries with
  | nil => intro acc _; simp
  | cons kv rest ih =>
    intro acc hnd
    obtain ⟨k, v⟩ := kv
    have hk : k ∉ acc.map Prod.fst := by
      intro hm
      rcases List.nodup_append.mp hnd with ⟨-, -, hdisj⟩
      exact hdisj hm (by simp)
    rw [List.foldl_cons]
    rw [show recordSet acc (k, v).1 (k, v).2 = acc ++ [(k, v)] from recordSet_fresh acc k v hk]
    rw [ih (acc ++ [(k, v)]) (by
      rw [List.map_append]
      rw [List.append_assoc]
      simpa using hnd)]
    simp

theorem buildRecord_eq (entries : List (String × String))
    (h : (entries.map Prod.fst).Nodup) : buildRecord entries = entries := by
  rw [buildRecord, foldl_recordSet_eq entries [] (by simpa using h)]
  rfl

/-- **C2.**  For every parsed XML document (names free of bracket/slash
delimiter characters and attribute records duplicate-free, as the XML parser
guarantees), no two entries the flattening loop emits share a key: the rendered
attribute and text keys of the emission stream are pairwise distinct, because
canonical element paths are unique across the whole document; consequently the
collector-record writes never collide and the final flat mapping is literally
the emission stream. -/
theorem flatten_keys_nodup (root : Option XNodes) (b s : Nat) (hwf : wfO root) :
    ((((loopGo b s (nodesSizeO root + 1)
        { stack := [⟨root.map XNodes.toList, []⟩], entries := [], processed := 0, lastEmit := 0,
          msgs := [(b, some "Parsing XML…")] }).entries).map Prod.fst).Nodup)
    ∧ (mapXmlToFlat (Except.ok root) b s).map = (loopGo b s (nodesSizeO root + 1)
        { stack := [⟨root.map XNodes.toList, []⟩], entries := [], processed := 0, lastEmit := 0,
          msgs := [(b, some "Parsing XML…")] }).entries := by
  have hperm := flattenLoop_entries_perm root b s
  have hsnd := sFlatOpt_nodup root [] hwf
  have hgood := sFlatOpt_good root [] hwf (by intro g hg; cases hg)
  have hencnd : ((((sFlatOpt root []).map encodeEntry)).map Prod.fst).Nodup := by
    rw [show ((sFlatOpt root []).map encodeEntry).map Prod.fst
        = ((sFlatOpt root []).map Prod.fst).map encodeKey by
      rw [List.map_map, List.map_map]
      rfl]
    refine List.Nodup.map_on ?_ hsnd
    intro x hx y hy hxy
    obtain ⟨ex, hex, rfl⟩ := List.mem_map.mp hx
    obtain ⟨ey, hey, rfl⟩ := List.mem_map.mp hy
    obtain ⟨h1, h2⟩ := encodeKey_inj ex.1.1 ey.1.1 ex.1.2 ey.1.2 (hgood ex hex) (hgood ey hey)
      (by obtain ⟨⟨a, b2⟩, c2⟩ := ex; obtain ⟨⟨a', b2'⟩, c2'⟩ := ey; exact hxy)
    obtain ⟨⟨a, b2⟩, c2⟩ := ex
    obtain ⟨⟨a', b2'⟩, c2'⟩ := ey
    simp only at h1 h2
    rw [h1, h2]
  have hend : (((loopGo b s (nodesSizeO root + 1)
        { stack := [⟨root.map XNodes.toList, []⟩], entries := [], processed := 0, lastEmit := 0,
          msgs := [(b, some "Parsing XML…")] }).entries).map Prod.fst).Nodup :=
    ((hperm.map Prod.fst).nodup_iff).mpr hencnd
  refine ⟨hend, ?_⟩
  rw [show (mapXmlToFlat (Except.ok root) b s).map
      = buildRecord ((loopGo b s (nodesSizeO root + 1)
        { stack := [⟨root.map XNodes.toList, []⟩], entries := [], processed := 0, lastEmit := 0,
          msgs := [(b, some "Parsing XML…")] }).entries) from rfl]
  rw [buildRecord_eq _ hend]

/-- Witness for C2 on a concrete document with attributes, text and repeated
sibling names. -/
theorem flatten_keys_nodup_witness :
    wfO (some (.cons (.element (some "a") [("x", "1"), ("y", "2")]
      (some (.cons (.element (some "b") [] (some (.cons (.text (some "hi")) .nil)))
        (.cons (.element (some "b") [] none) .nil)))) .nil))
      ∧ (((((loopGo 0 45 (nodesSizeO (some (.cons (.element (some "a") [("x", "1"), ("y", "2")]
      (some (.cons (.element (some "b") [] (some (.cons (.text (some "hi")) .nil)))
        (.cons (.element (some "b") [] none) .nil)))) .nil)) + 1)
      { stack := [⟨((some (.cons (.element (some "a") [("x", "1"), ("y", "2")]
      (some (.cons (.element (some "b") [] (some (.cons (.text (some "hi")) .nil)))
        (.cons (.element (some "b") [] none) .nil)))) .nil)) : Option XNodes).map XNodes.toList, []⟩], entries := [], processed := 0,
        lastEmit := 0, msgs := [(0, some "Parsing XML…")] }).entries).map Prod.fst).Nodup)
        ∧ (mapXmlToFlat (Except.ok (some (.cons (.element (some "a") [("x", "1"), ("y", "2")]
      (some (.cons (.element (some "b") [] (some (.cons (.text (some "hi")) .nil)))
        (.cons (.element (some "b") [] none) .nil)))) .nil))) 0 45).map = (loopGo 0 45 (nodesSizeO (some (.cons (.element (some "a") [("x", "1"), ("y", "2")]
      (some (.cons (.element (some "b") [] (some (.cons (.text (some "hi")) .nil)))
        (.cons (.element (some "b") [] none) .nil)))) .nil)) + 1)
      { stack := [⟨((some (.cons (.element (some "a") [("x", "1"), ("y", "2")]
      (some (.cons (.element (some "b") [] (some (.cons (.text (some "hi")) .nil)))
        (.cons (.element (some "b") [] none) .nil)))) .nil)) : Option XNodes).map XNodes.toList, []⟩], entries := [], processed := 0,
        lastEmit := 0, msgs := [(0, some "Parsing XML…")] }).entries) := by
  have hwf : wfO (some (.cons (.element (some "a") [("x", "1"), ("y", "2")]
      (some (.cons (.element (some "b") [] (some (.cons (.text (some "hi")) .nil)))
        (.cons (.element (some "b") [] none) .nil)))) .nil)) := by
    simp only [wfO, wfNs, wfN, goodName]
    decide
  exact ⟨hwf, flatten_keys_nodup (some (.cons (.element (some "a") [("x", "1"), ("y", "2")]
      (some (.cons (.element (some "b") [] (some (.cons (.text (some "hi")) .nil)))
        (.cons (.element (some "b") [] none) .nil)))) .nil)) 0 45 hwf⟩

theorem stringJoin_cons (a : String) (l : List String) :
    String.join (a :: l) = a ++ String.join l := by
  have hfold : ∀ (l : List String) (x : String), l.foldl (· ++ ·) x = x ++ String.join l := by
    intro l
    induction l with
    | nil => intro x; simp [String.join]
    | cons h t ih =>
      intro x
      show (h :: t).foldl (· ++ ·) x = x ++ String.join (h :: t)
      rw [List.foldl_cons, ih (x ++ h)]
      rw [show String.join (h :: t) = t.foldl (· ++ ·) ("" ++ h) from rfl]
      rw [ih ("" ++ h)]
      rw [show ("" ++ h : String) = h by simp]
      rw [String.append_assoc]
  rw [show String.join (a :: l) = l.foldl (· ++ ·) ("" ++ a) from rfl]
  rw [hfold l ("" ++ a)]
  simp

theorem extractTextGo_spec : (nodes : XNodes) → ∀ out : String,
    extractTextGo nodes out
      = out ++ String.join ((nodes.toList.filter isTextOrCdata).map fun n => (nodeTextOpt n).getD "")
  | .nil => by
      intro out
      simp [extractTextGo, XNodes.toList, String.join]
  | .cons (.text s) t => by
      intro out
      rw [show extractTextGo (.cons (.text s) t) out = extractTextGo t (out ++ s.getD "") from rfl]
      rw [extractTextGo_spec t (out ++ s.getD "")]
      rw [show (XNodes.cons (.text s) t).toList.filter isTextOrCdata
          = XNode.text s :: (t.toList.filter isTextOrCdata) from rfl]
      rw [List.map_cons, stringJoin_cons, String.append_assoc]
      rfl
  | .cons (.cdata s) t => by
      intro out
      rw [show extractTextGo (.cons (.cdata s) t) out = extractTextGo t (out ++ "") from rfl]
      rw [extractTextGo_spec t (out ++ "")]
      rw [show (XNodes.cons (.cdata s) t).toList.filter isTextOrCdata
          = XNode.cdata s :: (t.toList.filter isTextOrCdata) from rfl]
      rw [List.map_cons, stringJoin_cons, String.append_assoc]
      rfl
  | .cons (.element nm attrs ch) t => by
      intro out
      rw [show extractTextGo (.cons (.element nm attrs ch) t) out = extractTextGo t out from rfl]
      rw [extractTextGo_spec t out]
      rfl
  | .cons .other t => by
      intro out
      rw [show extractTextGo (.cons .other t) out = extractTextGo t out from rfl]
      rw [extractTextGo_spec t out]
      rfl

theorem str_append_cancel_left {p x y : String} (h : p ++ x = p ++ y) : x = y := by
  have hd := congrArg String.data h
  rw [str_data_append, str_data_append] at hd
  exact str_ext (List.append_cancel_left hd)

/-- **C3** (amended).  `extractText` equals the trimmed concatenation, in
document order, of the `text` property of every direct text/cdata child — which
is the child's literal text for text nodes but the empty string for cdata
nodes, whose content xml-js stores under `cdata` instead, so CDATA content is
dropped; and in the entries an element emits for itself, the `#text` key
appears exactly when that trimmed concatenation is nonempty, exactly once,
carrying it as value — never when it is empty. -/
theorem extractText_spec_and_unique_text_entry (p : String)
    (attrs : List (String × String)) (ch : Option XNodes) :
    (∀ c : XNodes, extractText (some c) = specTextValue c)
      ∧ (ownEntries p attrs (extractText ch)).filter (fun e => e.1 = p ++ "/#text")
        = (if extractText ch ≠ "" then [(p ++ "/#text", extractText ch)] else []) := by
  constructor
  · intro c
    rw [show extractText (some c) = jsTrim (extractTextGo c "") from rfl]
    rw [extractTextGo_spec c ""]
    rw [show ("" ++ String.join ((c.toList.filter isTextOrCdata).map fun n => (nodeTextOpt n).getD ""))
        = String.join ((c.toList.filter isTextOrCdata).map fun n => (nodeTextOpt n).getD "") by simp]
    rfl
  · rw [ownEntries, List.filter_append]
    have hattr : ((attrs.map fun av => (p ++ "/@" ++ av.1, av.2)).filter
        (fun e => e.1 = p ++ "/#text")) = [] := by
      rw [List.filter_eq_nil_iff]
      intro e he
      obtain ⟨av, hav, rfl⟩ := List.mem_map.mp he
      simp only [decide_eq_true_eq]
      intro hkey
      have h1 : ("/@" ++ av.1 : String) = "/#text" := by
        refine @str_append_cancel_left p _ _ ?_
        rw [← String.append_assoc]
        exact hkey
      have h2 := congrArg String.data h1
      rw [str_data_append] at h2
      have h3 := (List.cons.inj h2).2
      exact absurd (List.cons.inj h3).1 (by decide)
    rw [hattr, List.nil_append]
    by_cases ht : extractText ch ≠ ""
    · rw [if_pos ht]
      simp
    · rw [if_neg ht]
      rfl

mutual

theorem forceN_size : (n : XNode) → nodeSize (forceN n) = nodeSize n
  | .element nm attrs (some c) => by
      rw [show forceN (.element nm attrs (some c))
          = .element (some (nm.getD "unnamed")) attrs (some (forceNs c)) from rfl]
      rw [show nodeSize (XNode.element (some (nm.getD "unnamed")) attrs (some (forceNs c)))
          = 1 + nodesSize (forceNs c) from rfl]
      rw [forceNs_size c]
      rfl
  | .element nm attrs none => rfl
  | .text s => rfl
  | .cdata s => rfl
  | .other => rfl

theorem forceNs_size : (c : XNodes) → nodesSize (forceNs c) = nodesSize c
  | .nil => rfl
  | .cons h t => by
      rw [show forceNs (.cons h t) = .cons (forceN h) (forceNs t) from rfl]
      rw [show nodesSize (XNodes.cons (forceN h) (forceNs t))
          = nodeSize (forceN h) + nodesSize (forceNs t) from rfl]
      rw [forceN_size h, forceNs_size t]
      rfl

end

theorem forceNs_toList : (c : XNodes) → (forceNs c).toList = c.toList.map forceN
  | .nil => rfl
  | .cons h t => by
      rw [show forceNs (.cons h t) = .cons (forceN h) (forceNs t) from rfl]
      rw [show (XNodes.cons (forceN h) (forceNs t)).toList
          = forceN h :: (forceNs t).toList from rfl]
      rw [forceNs_toList t]
      rfl

theorem forceN_isElement (n : XNode) : (forceN n).isElement = n.isElement := by
  cases n <;> rfl

theorem extractTextGo_force : (c : XNodes) → ∀ out, extractTextGo (forceNs c) out = extractTextGo c out
  | .nil => fun _ => rfl
  | .cons (.text s) t => fun out => extractTextGo_force t (out ++ s.getD "")
  | .cons (.cdata s) t => fun out => extractTextGo_force t (out ++ "")
  | .cons (.element nm attrs ch) t => fun out => extractTextGo_force t out
  | .cons .other t => fun out => extractTextGo_force t out

theorem extractText_force (ch : Option XNodes) : extractText (forceO ch) = extractText ch := by
  cases ch with
  | none => rfl
  | some c =>
    rw [show forceO (some c) = some (forceNs c) from rfl]
    rw [show extractText (some (forceNs c)) = jsTrim (extractTextGo (forceNs c) "") from rfl]
    rw [extractTextGo_force c ""]
    rfl

theorem childBatch_force (ch : Option XNodes) :
    childBatch (forceO ch) = (childBatch ch).map (List.map forceN) := by
  cases ch with
  | none => rfl
  | some c =>
    rw [show forceO (some c) = some (forceNs c) from rfl]
    rw [show childBatch (some (forceNs c))
        = (if ((forceNs c).toList.filter fun n => n.isElement).isEmpty then none
          else some ((forceNs c).toList.filter fun n => n.isElement)) from rfl]
    rw [show childBatch (some c)
        = (if (c.toList.filter fun n => n.isElement).isEmpty then none
          else some (c.toList.filter fun n => n.isElement)) from rfl]
    have hfm : (forceNs c).toList.filter (fun n => n.isElement)
        = (c.toList.filter fun n => n.isElement).map forceN := by
      rw [forceNs_toList c]
      rw [List.filter_map]
      congr 1
      apply List.filter_congr
      intro n _
      show (forceN n).isElement = n.isElement
      exact forceN_isElement n
    rw [hfm]
    by_cases he : (c.toList.filter fun n => n.isElement).isEmpty
    · rw [List.isEmpty_iff.mp he]
      rfl
    · have hne : (c.toList.filter fun n => n.isElement) ≠ [] := by
        intro h0
        exact he (by rw [h0]; rfl)
      have h1 : ((c.toList.filter fun n => n.isElement).map forceN).isEmpty = false := by
        rcases List.exists_cons_of_ne_nil hne with ⟨a, t, hat⟩
        rw [hat]
        rfl
      have h2 : (c.toList.filter fun n => n.isElement).isEmpty = false := by
        rcases List.exists_cons_of_ne_nil hne with ⟨a, t, hat⟩
        rw [hat]
        rfl
      rw [h1, h2]
      rfl

theorem stepState_force (b s : Nat) (path : List String) (counts : List (String × Nat))
    (nm : Option String) (attrs : List (String × String)) (ch : Option XNodes) (st : LoopSt) :
    stepState b s path counts (some (nm.getD "unnamed")) attrs (forceO ch) (forceSt st)
      = forceSt (stepState b s path counts nm attrs ch st) := by
  obtain ⟨stk, ent, proc, le, ms⟩ := st
  have hname : (some (nm.getD "unnamed")).getD "unnamed" = nm.getD "unnamed" := by
    cases nm <;> rfl
  cases hcb : childBatch ch with
  | none =>
    have hcbf : childBatch (forceO ch) = none := by
      rw [childBatch_force, hcb]; rfl
    simp only [stepState, forceSt, forceFrame, hname, extractText_force, hcb, hcbf,
      List.length_map]
    by_cases hemit : 250 ≤ proc + 1 - le
    · rw [if_pos hemit, if_pos hemit]
    · rw [if_neg hemit, if_neg hemit]
  | some f =>
    have hcbf : childBatch (forceO ch) = some (f.map forceN) := by
      rw [childBatch_force, hcb]; rfl
    simp only [stepState, forceSt, forceFrame, hname, extractText_force, hcb, hcbf,
      List.length_map, List.map_cons, List.length_cons]
    by_cases hemit : 250 ≤ proc + 1 - le
    · rw [if_pos hemit, if_pos hemit]; rfl
    · rw [if_neg hemit, if_neg hemit]; rfl

theorem procElems_force (b s : Nat) (path : List String) :
    ∀ (els : List XNode) (counts : List (String × Nat)) (st : LoopSt),
    procElems b s path (els.map forceN) counts (forceSt st)
      = forceSt (procElems b s path els counts st)
  | [], _, _ => rfl
  | .element nm attrs ch :: rest, counts, st => by
    have hname : (some (nm.getD "unnamed")).getD "unnamed" = nm.getD "unnamed" := by
      cases nm <;> rfl
    show procElems b s path (XNode.element (some (nm.getD "unnamed")) attrs (forceO ch)
        :: rest.map forceN) counts (forceSt st) = _
    rw [show procElems b s path (XNode.element (some (nm.getD "unnamed")) attrs (forceO ch)
          :: rest.map forceN) counts (forceSt st)
        = procElems b s path (rest.map forceN)
            (recordSet counts ((some (nm.getD "unnamed")).getD "unnamed")
              (recordGetD counts ((some (nm.getD "unnamed")).getD "unnamed") 0 + 1))
            (stepState b s path counts (some (nm.getD "unnamed")) attrs (forceO ch)
              (forceSt st)) from rfl]
    rw [hname, stepState_force, procElems_force b s path rest _ _]
    rfl
  | .text t :: rest, counts, st => procElems_force b s path rest counts st
  | .cdata t :: rest, counts, st => procElems_force b s path rest counts st
  | .other :: rest, counts, st => procElems_force b s path rest counts st

theorem loopGo_force (b s : Nat) :
    ∀ (fuel : Nat) (st : LoopSt), loopGo b s fuel (forceSt st) = forceSt (loopGo b s fuel st)
  | 0, _ => rfl
  | fuel + 1, st => by
    obtain ⟨stk, ent, proc, le, ms⟩ := st
    cases stk with
    | nil => rfl
    | cons f rest =>
      obtain ⟨fels, fpath⟩ := f
      cases fels with
      | none =>
        show loopGo b s fuel (forceSt ⟨rest, ent, proc, le, ms⟩) = _
        rw [loopGo_force b s fuel ⟨rest, ent, proc, le, ms⟩]
        rfl
      | some els =>
        show loopGo b s fuel
            (procElems b s fpath (els.map forceN) []
              (forceSt ⟨rest, ent, proc, le, ms⟩)) = _
        rw [procElems_force b s fpath els [] ⟨rest, ent, proc, le, ms⟩]
        rw [loopGo_force b s fuel (procElems b s fpath els [] ⟨rest, ent, proc, le, ms⟩)]
        rfl

theorem nodesSizeO_force (ch : Option XNodes) : nodesSizeO (forceO ch) = nodesSizeO ch := by
  cases ch with
  | none => rfl
  | some c =>
    rw [show forceO (some c) = some (forceNs c) from rfl]
    rw [show nodesSizeO (some (forceNs c)) = nodesSize (forceNs c) from rfl]
    rw [forceNs_size c]
    rfl

theorem mapXmlToFlat_force (root : Option XNodes) (b s : Nat) :
    mapXmlToFlat (Except.ok (forceO root)) b s = mapXmlToFlat (Except.ok root) b s := by
  simp only [mapXmlToFlat, nodesSizeO_force]
  have hst0 : ({ stack := [⟨(forceO root).map XNodes.toList, []⟩], entries := [],
                 processed := 0, lastEmit := 0,
                 msgs := [(b, some "Parsing XML…")] } : LoopSt)
      = forceSt { stack := [⟨root.map XNodes.toList, []⟩], entries := [],
                  processed := 0, lastEmit := 0,
                  msgs := [(b, some "Parsing XML…")] } := by
    cases root with
    | none => rfl
    | some c =>
      simp only [forceSt, forceFrame, List.map_cons, List.map_nil]
      rw [show Option.map XNodes.toList (forceO (some c)) = some (forceNs c).toList from rfl]
      rw [show Option.map (List.map forceN) (Option.map XNodes.toList (some c))
          = some (c.toList.map forceN) from rfl]
      rw [forceNs_toList c]
  rw [hst0, loopGo_force]
  rfl

theorem isTextOrCdata_force (n : XNode) : isTextOrCdata (forceN n) = isTextOrCdata n := by
  cases n <;> rfl

theorem nodeTextOpt_force (n : XNode) : nodeTextOpt (forceN n) = nodeTextOpt n := by
  cases n <;> rfl

theorem jsOrName_force (nm : Option String) : jsOrName (some (nm.getD "unnamed")) = jsOrName nm := by
  cases nm with
  | none => rfl
  | some s =>
    by_cases hs : s = ""
    · subst hs; rfl
    · show (if s = "" then "unnamed" else s) = jsOrName (some s)
      rw [if_neg hs]
      show s = if s = "" then "unnamed" else s
      rw [if_neg hs]

theorem childList_force (ch : Option XNodes) :
    ((forceO ch).map XNodes.toList).getD [] = (((ch.map XNodes.toList).getD []).map forceN) := by
  cases ch with
  | none => rfl
  | some c =>
    rw [show ((forceO (some c)).map XNodes.toList).getD [] = (forceNs c).toList from rfl]
    rw [forceNs_toList c]
    rfl

theorem buildETGo_force :
    ∀ (fuel : Nat) (els : List XNode) (path parentPath : String) (counts : List (String × Nat)),
    buildETGo fuel (els.map forceN) path parentPath counts = buildETGo fuel els path parentPath counts
  | 0, _, _, _, _ => rfl
  | _ + 1, [], _, _, _ => rfl
  | fuel + 1, .element nm attrs ch :: rest, path, parentPath, counts => by
    show buildETGo (fuel + 1)
        (XNode.element (some (nm.getD "unnamed")) attrs (forceO ch) :: rest.map forceN)
        path parentPath counts = _
    simp only [buildETGo, jsOrName_force]
    have htext : ((((forceO ch).map XNodes.toList).getD []).filter isTextOrCdata).map
        (fun n => (nodeTextOpt n).getD "")
        = ((((ch.map XNodes.toList).getD []).filter isTextOrCdata).map
            fun n => (nodeTextOpt n).getD "") := by
      rw [childList_force, List.filter_map]
      have hpred : List.filter (isTextOrCdata ∘ forceN) (((ch.map XNodes.toList).getD []))
          = List.filter isTextOrCdata (((ch.map XNodes.toList).getD [])) := by
        apply List.filter_congr
        intro n _
        show isTextOrCdata (forceN n) = isTextOrCdata n
        exact isTextOrCdata_force n
      rw [hpred, List.map_map]
      apply List.map_congr_left
      intro n _
      show ((nodeTextOpt (forceN n)).getD "") = ((nodeTextOpt n).getD "")
      rw [nodeTextOpt_force]
    have hchild : (((forceO ch).map XNodes.toList).getD []).filter (fun n => n.isElement)
        = ((((ch.map XNodes.toList).getD []).filter fun n => n.isElement).map forceN) := by
      rw [childList_force, List.filter_map]
      congr 1
      apply List.filter_congr
      intro n _
      show (forceN n).isElement = n.isElement
      exact forceN_isElement n
    rw [htext, hchild, buildETGo_force fuel _ _ _ [], buildETGo_force fuel (rest) _ _ _]
  | fuel + 1, .text t :: rest, path, parentPath, counts => by
    show buildETGo fuel (rest.map forceN) path parentPath counts
        = buildETGo fuel rest path parentPath counts
    exact buildETGo_force fuel rest path parentPath counts
  | fuel + 1, .cdata t :: rest, path, parentPath, counts => by
    show buildETGo fuel (rest.map forceN) path parentPath counts
        = buildETGo fuel rest path parentPath counts
    exact buildETGo_force fuel rest path parentPath counts
  | fuel + 1, .other :: rest, path, parentPath, counts => by
    show buildETGo fuel (rest.map forceN) path parentPath counts
        = buildETGo fuel rest path parentPath counts
    exact buildETGo_force fuel rest path parentPath counts

theorem buildEditableTree_force (els : List XNode) (path parentPath : String) :
    buildEditableTree (els.map forceN) path parentPath = buildEditableTree els path parentPath := by
  have hsz : (els.map forceN).map nodeSize = els.map nodeSize := by
    rw [List.map_map]
    apply List.map_congr_left
    intro n _
    show nodeSize (forceN n) = nodeSize n
    exact forceN_size n
  show buildETGo (((els.map forceN).map nodeSize).sum + 1) (els.map forceN) path parentPath []
      = buildETGo ((els.map nodeSize).sum + 1) els path parentPath []
  rw [hsz, buildETGo_force]

theorem str_append_cancel_right {x y q : String} (h : x ++ q = y ++ q) : x = y := by
  have hd := congrArg String.data h
  rw [str_data_append, str_data_append] at hd
  exact str_ext (List.append_cancel_right hd)

theorem pathJoin_idx_inj (path nm : String) {i j : Nat}
    (h : pathJoin path (nm ++ "[" ++ natStr i ++ "]") = pathJoin path (nm ++ "[" ++ natStr j ++ "]")) :
    i = j := by
  have hseg : nm ++ "[" ++ natStr i ++ "]" = nm ++ "[" ++ natStr j ++ "]" := by
    by_cases hp : path = ""
    · simp only [pathJoin, hp, if_pos] at h
      exact h
    · simp only [pathJoin, if_neg hp] at h
      exact str_append_cancel_left h
  have hseg' : (nm ++ "[") ++ (natStr i ++ "]") = (nm ++ "[") ++ (natStr j ++ "]") := by
    rw [← String.append_assoc, ← String.append_assoc]
    exact hseg
  have hcore : natStr i ++ "]" = natStr j ++ "]" :=
    str_append_cancel_left hseg'
  exact natStr_inj i j (str_append_cancel_right hcore)

theorem buildETGo_unnamed_bound :
    ∀ (fuel : Nat) (els : List XNode) (path parentPath : String) (counts : List (String × Nat)),
    ∀ q ∈ (buildETGo fuel els path parentPath counts).pathsOf "unnamed",
      ∃ i, recordGetD counts "unnamed" 0 < i ∧
        q = pathJoin path ("unnamed" ++ "[" ++ natStr i ++ "]")
  | 0, _, _, _, _ => by
    intro q hq
    exact absurd hq (List.not_mem_nil q)
  | _ + 1, [], _, _, _ => by
    intro q hq
    exact absurd hq (List.not_mem_nil q)
  | fuel + 1, .element nm attrs ch :: rest, path, parentPath, counts => by
    intro q hq
    simp only [buildETGo, ENodes.pathsOf, ENode.name, ENode.path] at hq
    rw [List.mem_append] at hq
    rcases hq with hq | hq
    · by_cases hnm : jsOrName nm = "unnamed"
      · rw [if_pos hnm, List.mem_singleton] at hq
        refine ⟨recordGetD counts (jsOrName nm) 0 + 1, ?_, ?_⟩
        · rw [hnm]
          omega
        · rw [hq, hnm]
      · rw [if_neg hnm] at hq
        exact absurd hq (List.not_mem_nil q)
    · obtain ⟨i, hlt, hq'⟩ := buildETGo_unnamed_bound fuel rest path parentPath
        (recordSet counts (jsOrName nm) (recordGetD counts (jsOrName nm) 0 + 1)) q hq
      refine ⟨i, ?_, hq'⟩
      rw [recordGetD_set] at hlt
      by_cases hnm : jsOrName nm = "unnamed"
      · rw [if_pos hnm, hnm] at hlt
        omega
      · rw [if_neg hnm] at hlt
        exact hlt
  | fuel + 1, .text t :: rest, path, parentPath, counts => by
    intro q hq
    exact buildETGo_unnamed_bound fuel rest path parentPath counts q hq
  | fuel + 1, .cdata t :: rest, path, parentPath, counts => by
    intro q hq
    exact buildETGo_unnamed_bound fuel rest path parentPath counts q hq
  | fuel + 1, .other :: rest, path, parentPath, counts => by
    intro q hq
    exact buildETGo_unnamed_bound fuel rest path parentPath counts q hq

theorem buildETGo_unnamed_nodup :
    ∀ (fuel : Nat) (els : List XNode) (path parentPath : String) (counts : List (String × Nat)),
    ((buildETGo fuel els path parentPath counts).pathsOf "unnamed").Nodup
  | 0, _, _, _, _ => List.nodup_nil
  | _ + 1, [], _, _, _ => List.nodup_nil
  | fuel + 1, .element nm attrs ch :: rest, path, parentPath, counts => by
    simp only [buildETGo, ENodes.pathsOf, ENode.name, ENode.path]
    by_cases hnm : jsOrName nm = "unnamed"
    · rw [if_pos hnm, List.singleton_append]
      refine List.nodup_cons.mpr ⟨?_, buildETGo_unnamed_nodup fuel rest path parentPath _⟩
      intro hmem
      obtain ⟨i, hlt, hq⟩ := buildETGo_unnamed_bound fuel rest path parentPath
        (recordSet counts (jsOrName nm) (recordGetD counts (jsOrName nm) 0 + 1)) _ hmem
      rw [recordGetD_set, if_pos hnm, hnm] at hlt
      rw [hnm] at hq
      have heq := pathJoin_idx_inj path "unnamed" hq
      omega
    · rw [if_neg hnm, List.nil_append]
      exact buildETGo_unnamed_nodup fuel rest path parentPath _
  | fuel + 1, .text t :: rest, path, parentPath, counts =>
    buildETGo_unnamed_nodup fuel rest path parentPath counts
  | fuel + 1, .cdata t :: rest, path, parentPath, counts =>
    buildETGo_unnamed_nodup fuel rest path parentPath counts
  | fuel + 1, .other :: rest, path, parentPath, counts =>
    buildETGo_unnamed_nodup fuel rest path parentPath counts

/-- **C10.** Missing element names are handled by substituting the literal
segment name `unnamed`: replacing every missing name in the parsed tree by the
literal name `unnamed` (the substitution `forceN`/`forceO`) changes neither the
flattener's output (map, error and progress messages) nor the editor's built
editable tree — so missing-named elements share one sibling occurrence counter
with elements literally named `unnamed` — and in every sibling list the builder
processes (any fuel, any starting counter record) the paths assigned to the
nodes displayed as `unnamed` are pairwise distinct, i.e. their occurrence
indices remain distinct among those siblings. -/
theorem unnamed_substitution_and_distinct_indices :
    (∀ (root : Option XNodes) (b s : Nat),
      mapXmlToFlat (Except.ok (forceO root)) b s = mapXmlToFlat (Except.ok root) b s)
    ∧ (∀ (els : List XNode) (path parentPath : String),
      buildEditableTree (els.map forceN) path parentPath = buildEditableTree els path parentPath)
    ∧ (∀ (fuel : Nat) (els : List XNode) (path parentPath : String)
        (counts : List (String × Nat)),
      ((buildETGo fuel els path parentPath counts).pathsOf "unnamed").Nodup) :=
  ⟨mapXmlToFlat_force, buildEditableTree_force, buildETGo_unnamed_nodup⟩

/-- **C8.** Reindexing the editable tree is idempotent: one pass rewrites every
node's id/path from its name and the per-sibling-list occurrence counters
(children restarting from a fresh counter record), and since names are left
untouched a second pass recomputes exactly the same counters and paths. -/
theorem regenerateIds_idempotent :
    ∀ (ns : ENodes) (parentPath : String) (counts : List (String × Nat)),
    regenerateIds (regenerateIds ns parentPath counts) parentPath counts
      = regenerateIds ns parentPath counts
  | .nil, _, _ => rfl
  | .cons (.mk i p nm v a it ch) rest, parentPath, counts => by
    simp only [regenerateIds]
    rw [regenerateIds_idempotent ch
        (pathJoin parentPath (nm ++ "[" ++ natStr (recordGetD counts nm 0 + 1) ++ "]")) []]
    rw [regenerateIds_idempotent rest parentPath
        (recordSet counts nm (recordGetD counts nm 0 + 1))]

/-- **C9** (counterexample).  Duplicating the second of three same-named `b`
siblings does insert a fourth child, but the inserted node is renamed `b1`
(the trailing-index regex strips nothing from a node *name*, which never
carries a bracketed index, and no sibling name contributes a suffix number),
so the parent ends up with children named `b, b, b, b1` at paths
`r[1].b[1], r[1].b[2], r[1].b[3], r[1].b1[1]` — the duplicate is not a
fourth same-named sibling and no node with id `r[1].b[4]` exists. -/
theorem duplicate_second_sibling_counterexample :
    ((findNodeById (duplicatePath dupScenarioTree "r[1].b[2]") "r[1]").map
        fun n => (n.children.names, n.children.paths))
      = some (["b", "b", "b", "b1"],
          ["r[1].b[1]", "r[1].b[2]", "r[1].b[3]", "r[1].b1[1]"])
    ∧ (findNodeById (duplicatePath dupScenarioTree "r[1].b[2]") "r[1].b[4]").isNone = true :=
  ⟨by decide, by decide⟩

theorem matchIndexNum_bracketFree (s : String) (hs : rbChar ∉ s.data) :
    matchIndexNum s = none := by
  cases hrev : s.data.reverse with
  | nil => simp only [matchIndexNum, hrev]
  | cons c rest =>
    have hc : c ∈ s.data := by
      rw [← List.mem_reverse, hrev]
      exact List.mem_cons_self c rest
    have hne : ¬(c = rbChar) := fun h => hs (h ▸ hc)
    simp only [matchIndexNum, hrev, if_neg hne]

theorem stripIndexSuffix_bracketFree (s : String) (hs : rbChar ∉ s.data) :
    stripIndexSuffix s = s := by
  cases hrev : s.data.reverse with
  | nil => simp only [stripIndexSuffix, hrev]
  | cons c rest =>
    have hc : c ∈ s.data := by
      rw [← List.mem_reverse, hrev]
      exact List.mem_cons_self c rest
    have hne : ¬(c = rbChar) := fun h => hs (h ▸ hc)
    simp only [stripIndexSuffix, hrev, if_neg hne]

theorem maxSuffixNum_bracketFree (base : String) :
    ∀ (ns : ENodes), ns.bracketFreeNames → maxSuffixNum base ns = 0
  | .nil, _ => rfl
  | .cons n t, h => by
    obtain ⟨hn, ht⟩ := h
    show (if strStarts n.name base then
        max ((matchIndexNum n.name).getD 0) (maxSuffixNum base t)
      else maxSuffixNum base t) = 0
    rw [matchIndexNum_bracketFree n.name hn]
    rw [maxSuffixNum_bracketFree base t ht]
    by_cases hsw : strStarts n.name base
    · rw [if_pos hsw]
      rfl
    · rw [if_neg hsw]

/-- **C9** (amended).  What duplication actually does to the name: for any
source node whose name is free of the closing bracket character (all
parser-produced names are), the strip-trailing-index rewrite leaves the name
unchanged, every bracket-free-named sibling list contributes a maximal suffix
number of `0`, and therefore the duplicate is renamed `name ++ "1"` — a name
different from the source's, so the inserted node is never a renumbered
same-named sibling. -/
theorem duplicate_rename_amended (s : String) (hs : rbChar ∉ s.data) :
    stripIndexSuffix s = s
    ∧ (∀ ns : ENodes, ns.bracketFreeNames →
        s ++ natStr (maxSuffixNum (stripIndexSuffix s) ns + 1) = s ++ "1")
    ∧ s ++ "1" ≠ s := by
  refine ⟨stripIndexSuffix_bracketFree s hs, ?_, ?_⟩
  · intro ns hns
    rw [stripIndexSuffix_bracketFree s hs, maxSuffixNum_bracketFree s ns hns]
    rfl
  · intro h
    have hl := congrArg String.length h
    rw [String.length_append] at hl
    rw [show ("1" : String).length = 1 from rfl] at hl
    omega

/-- Witness for the amended C9 statement at the scenario's sibling name `b`
and sibling list (the three `b` children of `dupScenarioTree`'s root). -/
theorem duplicate_rename_amended_witness :
    (rbChar ∉ "b".data)
    ∧ (stripIndexSuffix "b" = "b"
      ∧ (∀ ns : ENodes, ns.bracketFreeNames →
          "b" ++ natStr (maxSuffixNum (stripIndexSuffix "b") ns + 1) = "b" ++ "1")
      ∧ "b" ++ "1" ≠ "b") :=
  ⟨by decide, duplicate_rename_amended "b" (by decide)⟩

theorem dropWhile_dropWhile {α : Type} (p : α → Bool) (l : List α) :
    (l.dropWhile p).dropWhile p = l.dropWhile p := by
  induction l with
  | nil => rfl
  | cons a t ih =>
    rw [List.dropWhile_cons]
    by_cases hp : p a
    · rw [if_pos hp]
      exact ih
    · rw [if_neg hp, List.dropWhile_cons, if_neg hp]

theorem dropWhile_cons_self_false {α : Type} (p : α → Bool) {a : α} {t l : List α}
    (h : l.dropWhile p = a :: t) : p a = false := by
  have h2 : (a :: t).dropWhile p = a :: t := by
    rw [← h, dropWhile_dropWhile]
  rw [List.dropWhile_cons] at h2
  by_cases hp : p a
  · rw [if_pos hp] at h2
    have hlen := congrArg List.length h2
    have hle := (@List.dropWhile_suffix _ t p).length_le
    simp only [List.length_cons] at hlen
    omega
  · exact Bool.not_eq_true _ |>.mp hp

theorem jsTrim_idem (s : String) : jsTrim (jsTrim s) = jsTrim s := by
  have hm : (jsTrim s).data
      = ((s.data.dropWhile Char.isWhitespace).reverse.dropWhile Char.isWhitespace).reverse := rfl
  have hstep1 : ((jsTrim s).data).dropWhile Char.isWhitespace = (jsTrim s).data := by
    rw [hm]
    have hpre : List.rdropWhile Char.isWhitespace (s.data.dropWhile Char.isWhitespace)
        <+: s.data.dropWhile Char.isWhitespace := List.rdropWhile_prefix _ _
    rw [show List.rdropWhile Char.isWhitespace (s.data.dropWhile Char.isWhitespace)
        = ((s.data.dropWhile Char.isWhitespace).reverse.dropWhile Char.isWhitespace).reverse
        from rfl] at hpre
    obtain ⟨tl, htl⟩ := hpre
    cases hcase : ((s.data.dropWhile Char.isWhitespace).reverse.dropWhile Char.isWhitespace).reverse with
    | nil => rfl
    | cons a t =>
      rw [hcase] at htl
      have hz : s.data.dropWhile Char.isWhitespace = a :: (t ++ tl) := by
        rw [← htl]
        rfl
      have hfa := dropWhile_cons_self_false Char.isWhitespace hz
      rw [List.dropWhile_cons, hfa]
      rfl
  have hstep2 : ((jsTrim s).data).reverse.dropWhile Char.isWhitespace = ((jsTrim s).data).reverse := by
    rw [hm, List.reverse_reverse, dropWhile_dropWhile]
  show (⟨(((jsTrim s).data).dropWhile Char.isWhitespace).reverse.dropWhile Char.isWhitespace
      |>.reverse⟩ : String) = jsTrim s
  rw [hstep1, hstep2, List.reverse_reverse]

theorem neNs_toList : ∀ (c : XNodes), neNs c → ∀ n ∈ c.toList, neN n
  | .nil, _, n, hn => absurd hn (List.not_mem_nil n)
  | .cons h t, hne, n, hn => by
    obtain ⟨hh, ht⟩ := hne
    rcases List.mem_cons.mp hn with rfl | hn'
    · exact hh
    · exact neNs_toList t ht n hn'

theorem neNs_ofList : ∀ (l : List XNode), (∀ n ∈ l, neN n) → neNs (ofList l)
  | [], _ => trivial
  | h :: t, hall =>
    ⟨hall h (List.mem_cons_self h t), neNs_ofList t fun n hn => hall n (List.mem_cons_of_mem h hn)⟩

theorem jsOrName_of_ne (nm : Option String) (h : nm ≠ some "") :
    jsOrName nm = nm.getD "unnamed" := by
  cases nm with
  | none => rfl
  | some s =>
    have hs : s ≠ "" := fun he => h (by rw [he])
    show (if s = "" then "unnamed" else s) = s
    rw [if_neg hs]

theorem extractTextGo_buildXml : ∀ (t : ENodes) (out : String),
    extractTextGo (ofList (buildXmlFromEditable t)) out = out
  | .nil, _ => rfl
  | .cons (.mk i p nm v a it ch) t, out => extractTextGo_buildXml t out

theorem buildET_textValue (ch : Option XNodes) :
    jsTrim (String.join ((((ch.map XNodes.toList).getD []).filter isTextOrCdata).map
      fun n => (nodeTextOpt n).getD "")) = extractText ch := by
  cases ch with
  | none => rfl
  | some c =>
    rw [show extractText (some c) = jsTrim (extractTextGo c "") from rfl]
    rw [extractTextGo_spec c ""]
    rw [show ("" ++ String.join ((c.toList.filter isTextOrCdata).map fun n => (nodeTextOpt n).getD ""))
        = String.join ((c.toList.filter isTextOrCdata).map fun n => (nodeTextOpt n).getD "") by simp]
    rfl

theorem extractText_roundtrip (v : String) (hv : jsTrim v = v) (ch2 : ENodes) :
    extractText (some (ofList ((if v ≠ "" then [XNode.text (some v)] else [])
      ++ buildXmlFromEditable ch2))) = v := by
  by_cases hv0 : v ≠ ""
  · rw [if_pos hv0]
    rw [List.singleton_append]
    rw [show extractText (some (ofList (XNode.text (some v) :: buildXmlFromEditable ch2)))
        = jsTrim (extractTextGo (ofList (buildXmlFromEditable ch2)) ("" ++ v)) from rfl]
    rw [show ("" ++ v) = v by simp]
    rw [extractTextGo_buildXml ch2 v]
    exact hv
  · rw [if_neg hv0]
    rw [List.nil_append]
    rw [show extractText (some (ofList (buildXmlFromEditable ch2)))
        = jsTrim (extractTextGo (ofList (buildXmlFromEditable ch2)) "") from rfl]
    rw [extractTextGo_buildXml ch2 ""]
    rw [show jsTrim "" = "" from rfl]
    exact (not_ne_iff.mp hv0).symm

theorem sFlat_textPart (v : String) (L : List XNode) (segs counts : List (String × Nat)) :
    sFlat (ofList ((if v ≠ "" then [XNode.text (some v)] else []) ++ L)) segs counts
      = sFlat (ofList L) segs counts := by
  by_cases hv : v ≠ ""
  · rw [if_pos hv]
    rfl
  · rw [if_neg hv]
    rfl

theorem sFlat_childElements (ch : Option XNodes) (segs : List (String × Nat)) :
    sFlat (ofList (((ch.map XNodes.toList).getD []).filter fun n => n.isElement)) segs []
      = sFlatOpt ch segs := by
  rw [sFlatOpt_childBatch]
  cases ch with
  | none => rfl
  | some c =>
    by_cases he : (c.toList.filter fun n => n.isElement).isEmpty
    · rw [show childBatch (some c) = none by
        show (if (c.toList.filter fun n => n.isElement).isEmpty then none
          else some (c.toList.filter fun n => n.isElement)) = none
        rw [he]
        rfl]
      rw [show ((Option.map XNodes.toList (some c)).getD []) = c.toList from rfl]
      rw [List.isEmpty_iff.mp he]
      rfl
    · rw [show childBatch (some c) = some (c.toList.filter fun n => n.isElement) by
        show (if (c.toList.filter fun n => n.isElement).isEmpty then none
          else some (c.toList.filter fun n => n.isElement)) = _
        rw [Bool.not_eq_true _ |>.mp he]
        rfl]
      rfl

theorem sFlat_roundtrip :
    ∀ (fuel : Nat) (els : List XNode) (path pp : String) (counts0 : List (String × Nat)),
    (els.map nodeSize).sum < fuel → (∀ n ∈ els, neN n) →
    ∀ (segs counts : List (String × Nat)),
    sFlat (ofList (buildXmlFromEditable (buildETGo fuel els path pp counts0))) segs counts
      = sFlat (ofList els) segs counts
  | 0, _, _, _, _ => fun hsum _ _ _ => absurd hsum (Nat.not_lt_zero _)
  | _ + 1, [], _, _, _ => fun _ _ _ _ => rfl
  | fuel + 1, .element nm attrs ch :: rest, path, pp, counts0 => by
    intro hsum hne segs counts
    obtain ⟨hnm, hch⟩ : nm ≠ some "" ∧ neO ch := hne _ (List.mem_cons_self _ _)
    simp only [List.map_cons, List.sum_cons] at hsum
    have hpos := nodeSize_pos (XNode.element nm attrs ch)
    have hrest : (rest.map nodeSize).sum < fuel := by omega
    have hneR : ∀ n ∈ rest, neN n := fun n hn => hne n (List.mem_cons_of_mem _ hn)
    have hCE : (((((ch.map XNodes.toList).getD []).filter fun n => n.isElement)).map nodeSize).sum < fuel := by
      cases ch with
      | none =>
        rw [show ((((none : Option XNodes).map XNodes.toList).getD []).filter fun n => n.isElement) = ([] : List XNode) from rfl]
        simp only [List.map_nil, List.sum_nil]
        omega
      | some c =>
        rw [show ((Option.map XNodes.toList (some c)).getD []) = c.toList from rfl]
        have h1 := sum_map_filter_le (fun n => n.isElement) c.toList
        rw [toList_size c] at h1
        have h2 : nodeSize (XNode.element nm attrs (some c)) = 1 + nodesSize c := rfl
        omega
    have hneCE : ∀ n ∈ (((ch.map XNodes.toList).getD []).filter fun n => n.isElement), neN n := by
      cases ch with
      | none =>
        intro n hn
        rw [show ((((none : Option XNodes).map XNodes.toList).getD []).filter fun n => n.isElement) = ([] : List XNode) from rfl] at hn
        exact absurd hn (List.not_mem_nil n)
      | some c =>
        intro n hn
        rw [show ((Option.map XNodes.toList (some c)).getD []) = c.toList from rfl] at hn
        exact neNs_toList c hch n (List.mem_of_mem_filter hn)
    rw [show buildETGo (fuel + 1) (XNode.element nm attrs ch :: rest) path pp counts0
        = ENodes.cons (ENode.mk (pathJoin path (jsOrName nm ++ "[" ++ natStr (recordGetD counts0 (jsOrName nm) 0 + 1) ++ "]")) (pathJoin path (jsOrName nm ++ "[" ++ natStr (recordGetD counts0 (jsOrName nm) 0 + 1) ++ "]")) (jsOrName nm)
            (jsTrim (String.join ((((ch.map XNodes.toList).getD []).filter isTextOrCdata).map
          fun n => (nodeTextOpt n).getD ""))) attrs true
            (buildETGo fuel (((ch.map XNodes.toList).getD []).filter fun n => n.isElement) (pathJoin path (jsOrName nm ++ "[" ++ natStr (recordGetD counts0 (jsOrName nm) 0 + 1) ++ "]")) (if pp = "" then jsOrName nm else pp ++ "." ++ jsOrName nm) []))
          (buildETGo fuel rest path pp (recordSet counts0 (jsOrName nm) (recordGetD counts0 (jsOrName nm) 0 + 1))) from rfl]
    rw [show buildXmlFromEditable (ENodes.cons (ENode.mk (pathJoin path (jsOrName nm ++ "[" ++ natStr (recordGetD counts0 (jsOrName nm) 0 + 1) ++ "]")) (pathJoin path (jsOrName nm ++ "[" ++ natStr (recordGetD counts0 (jsOrName nm) 0 + 1) ++ "]")) (jsOrName nm)
            (jsTrim (String.join ((((ch.map XNodes.toList).getD []).filter isTextOrCdata).map
          fun n => (nodeTextOpt n).getD ""))) attrs true
            (buildETGo fuel (((ch.map XNodes.toList).getD []).filter fun n => n.isElement) (pathJoin path (jsOrName nm ++ "[" ++ natStr (recordGetD counts0 (jsOrName nm) 0 + 1) ++ "]")) (if pp = "" then jsOrName nm else pp ++ "." ++ jsOrName nm) []))
          (buildETGo fuel rest path pp (recordSet counts0 (jsOrName nm) (recordGetD counts0 (jsOrName nm) 0 + 1))))
        = XNode.element (some (jsOrName nm)) attrs
            (some (ofList ((if (jsTrim (String.join ((((ch.map XNodes.toList).getD []).filter isTextOrCdata).map
          fun n => (nodeTextOpt n).getD ""))) ≠ "" then [XNode.text (some (jsTrim (String.join ((((ch.map XNodes.toList).getD []).filter isTextOrCdata).map
          fun n => (nodeTextOpt n).getD ""))))] else [])
        ++ buildXmlFromEditable (buildETGo fuel (((ch.map XNodes.toList).getD []).filter fun n => n.isElement) (pathJoin path (jsOrName nm ++ "[" ++ natStr (recordGetD counts0 (jsOrName nm) 0 + 1) ++ "]")) (if pp = "" then jsOrName nm else pp ++ "." ++ jsOrName nm) []))))
          :: buildXmlFromEditable (buildETGo fuel rest path pp (recordSet counts0 (jsOrName nm) (recordGetD counts0 (jsOrName nm) 0 + 1))) from rfl]
    rw [show sFlat (ofList (XNode.element (some (jsOrName nm)) attrs
            (some (ofList ((if (jsTrim (String.join ((((ch.map XNodes.toList).getD []).filter isTextOrCdata).map
          fun n => (nodeTextOpt n).getD ""))) ≠ "" then [XNode.text (some (jsTrim (String.join ((((ch.map XNodes.toList).getD []).filter isTextOrCdata).map
          fun n => (nodeTextOpt n).getD ""))))] else [])
        ++ buildXmlFromEditable (buildETGo fuel (((ch.map XNodes.toList).getD []).filter fun n => n.isElement) (pathJoin path (jsOrName nm ++ "[" ++ natStr (recordGetD counts0 (jsOrName nm) 0 + 1) ++ "]")) (if pp = "" then jsOrName nm else pp ++ "." ++ jsOrName nm) []))))
          :: buildXmlFromEditable (buildETGo fuel rest path pp (recordSet counts0 (jsOrName nm) (recordGetD counts0 (jsOrName nm) 0 + 1))))) segs counts
        = (sOwn (segs ++ [(jsOrName nm, recordGetD counts (jsOrName nm) 0 + 1)]) attrs
              (extractText (some (ofList ((if (jsTrim (String.join ((((ch.map XNodes.toList).getD []).filter isTextOrCdata).map
          fun n => (nodeTextOpt n).getD ""))) ≠ "" then [XNode.text (some (jsTrim (String.join ((((ch.map XNodes.toList).getD []).filter isTextOrCdata).map
          fun n => (nodeTextOpt n).getD ""))))] else [])
        ++ buildXmlFromEditable (buildETGo fuel (((ch.map XNodes.toList).getD []).filter fun n => n.isElement) (pathJoin path (jsOrName nm ++ "[" ++ natStr (recordGetD counts0 (jsOrName nm) 0 + 1) ++ "]")) (if pp = "" then jsOrName nm else pp ++ "." ++ jsOrName nm) [])))))
            ++ sFlatOpt (some (ofList ((if (jsTrim (String.join ((((ch.map XNodes.toList).getD []).filter isTextOrCdata).map
          fun n => (nodeTextOpt n).getD ""))) ≠ "" then [XNode.text (some (jsTrim (String.join ((((ch.map XNodes.toList).getD []).filter isTextOrCdata).map
          fun n => (nodeTextOpt n).getD ""))))] else [])
        ++ buildXmlFromEditable (buildETGo fuel (((ch.map XNodes.toList).getD []).filter fun n => n.isElement) (pathJoin path (jsOrName nm ++ "[" ++ natStr (recordGetD counts0 (jsOrName nm) 0 + 1) ++ "]")) (if pp = "" then jsOrName nm else pp ++ "." ++ jsOrName nm) []))))
                (segs ++ [(jsOrName nm, recordGetD counts (jsOrName nm) 0 + 1)]))
          ++ sFlat (ofList (buildXmlFromEditable (buildETGo fuel rest path pp (recordSet counts0 (jsOrName nm) (recordGetD counts0 (jsOrName nm) 0 + 1))))) segs
              (recordSet counts (jsOrName nm) (recordGetD counts (jsOrName nm) 0 + 1)) from rfl]
    rw [show sFlat (ofList (XNode.element nm attrs ch :: rest)) segs counts
        = (sOwn (segs ++ [(nm.getD "unnamed", recordGetD counts (nm.getD "unnamed") 0 + 1)]) attrs (extractText ch)
            ++ sFlatOpt ch (segs ++ [(nm.getD "unnamed", recordGetD counts (nm.getD "unnamed") 0 + 1)]))
          ++ sFlat (ofList rest) segs (recordSet counts (nm.getD "unnamed") (recordGetD counts (nm.getD "unnamed") 0 + 1)) from rfl]
    rw [jsOrName_of_ne nm hnm]
    rw [extractText_roundtrip (jsTrim (String.join ((((ch.map XNodes.toList).getD []).filter isTextOrCdata).map
          fun n => (nodeTextOpt n).getD ""))) (jsTrim_idem _) (buildETGo fuel (((ch.map XNodes.toList).getD []).filter fun n => n.isElement) (pathJoin path (nm.getD "unnamed" ++ "[" ++ natStr (recordGetD counts0 (nm.getD "unnamed") 0 + 1) ++ "]")) (if pp = "" then nm.getD "unnamed" else pp ++ "." ++ nm.getD "unnamed") [])]
    rw [buildET_textValue ch]
    rw [show sFlatOpt (some (ofList ((if extractText ch ≠ "" then [XNode.text (some (extractText ch))] else [])
        ++ buildXmlFromEditable (buildETGo fuel (((ch.map XNodes.toList).getD []).filter fun n => n.isElement) (pathJoin path (nm.getD "unnamed" ++ "[" ++ natStr (recordGetD counts0 (nm.getD "unnamed") 0 + 1) ++ "]")) (if pp = "" then nm.getD "unnamed" else pp ++ "." ++ nm.getD "unnamed") [])))) (segs ++ [(nm.getD "unnamed", recordGetD counts (nm.getD "unnamed") 0 + 1)])
        = sFlat (ofList ((if extractText ch ≠ "" then [XNode.text (some (extractText ch))] else [])
            ++ buildXmlFromEditable (buildETGo fuel (((ch.map XNodes.toList).getD []).filter fun n => n.isElement) (pathJoin path (nm.getD "unnamed" ++ "[" ++ natStr (recordGetD counts0 (nm.getD "unnamed") 0 + 1) ++ "]")) (if pp = "" then nm.getD "unnamed" else pp ++ "." ++ nm.getD "unnamed") []))) (segs ++ [(nm.getD "unnamed", recordGetD counts (nm.getD "unnamed") 0 + 1)]) [] from rfl]
    rw [sFlat_textPart]
    rw [sFlat_roundtrip fuel (((ch.map XNodes.toList).getD []).filter fun n => n.isElement) (pathJoin path (nm.getD "unnamed" ++ "[" ++ natStr (recordGetD counts0 (nm.getD "unnamed") 0 + 1) ++ "]")) (if pp = "" then nm.getD "unnamed" else pp ++ "." ++ nm.getD "unnamed") [] hCE hneCE (segs ++ [(nm.getD "unnamed", recordGetD counts (nm.getD "unnamed") 0 + 1)]) []]
    rw [sFlat_childElements ch (segs ++ [(nm.getD "unnamed", recordGetD counts (nm.getD "unnamed") 0 + 1)])]
    rw [sFlat_roundtrip fuel rest path pp (recordSet counts0 (nm.getD "unnamed") (recordGetD counts0 (nm.getD "unnamed") 0 + 1)) hrest hneR segs (recordSet counts (nm.getD "unnamed") (recordGetD counts (nm.getD "unnamed") 0 + 1))]
  | fuel + 1, .text t :: rest, path, pp, counts0 => by
    intro hsum hne segs counts
    simp only [List.map_cons, List.sum_cons] at hsum
    have hrest : (rest.map nodeSize).sum < fuel := by
      have h1 : nodeSize (XNode.text t) = 1 := rfl
      omega
    exact sFlat_roundtrip fuel rest path pp counts0 hrest
      (fun n hn => hne n (List.mem_cons_of_mem _ hn)) segs counts
  | fuel + 1, .cdata t :: rest, path, pp, counts0 => by
    intro hsum hne segs counts
    simp only [List.map_cons, List.sum_cons] at hsum
    have hrest : (rest.map nodeSize).sum < fuel := by
      have h1 : nodeSize (XNode.cdata t) = 1 := rfl
      omega
    exact sFlat_roundtrip fuel rest path pp counts0 hrest
      (fun n hn => hne n (List.mem_cons_of_mem _ hn)) segs counts
  | fuel + 1, .other :: rest, path, pp, counts0 => by
    intro hsum hne segs counts
    simp only [List.map_cons, List.sum_cons] at hsum
    have hrest : (rest.map nodeSize).sum < fuel := by
      have h1 : nodeSize XNode.other = 1 := rfl
      omega
    exact sFlat_roundtrip fuel rest path pp counts0 hrest
      (fun n hn => hne n (List.mem_cons_of_mem _ hn)) segs counts

theorem recordGet_perm {α : Type} {l₁ l₂ : List (String × α)} (hp : l₁.Perm l₂)
    (hnd : (l₁.map Prod.fst).Nodup) (k : String) : recordGet l₁ k = recordGet l₂ k := by
  induction hp with
  | nil => rfl
  | cons x hp ih =>
    obtain ⟨a, v⟩ := x
    rw [show recordGet ((a, v) :: _) k = (if a = k then some v else recordGet _ k) from rfl]
    rw [show recordGet ((a, v) :: _) k = (if a = k then some v else recordGet _ k) from rfl]
    rw [List.map_cons, List.nodup_cons] at hnd
    rw [ih hnd.2]
  | swap x y t =>
    obtain ⟨a, v⟩ := x
    obtain ⟨a', v'⟩ := y
    simp only [List.map_cons, List.nodup_cons, List.mem_cons] at hnd
    have hne : a' ≠ a := fun h => hnd.1 (Or.inl h)
    rw [show recordGet ((a', v') :: (a, v) :: t) k
        = (if a' = k then some v' else recordGet ((a, v) :: t) k) from rfl]
    rw [show recordGet ((a, v) :: (a', v') :: t) k
        = (if a = k then some v else recordGet ((a', v') :: t) k) from rfl]
    rw [show recordGet ((a, v) :: t) k = (if a = k then some v else recordGet t k) from rfl]
    rw [show recordGet ((a', v') :: t) k = (if a' = k then some v' else recordGet t k) from rfl]
    by_cases h1 : a' = k
    · by_cases h2 : a = k
      · exact absurd (h1.trans h2.symm) hne
      · rw [if_pos h1, if_neg h2, if_pos h1]
    · by_cases h2 : a = k
      · rw [if_neg h1, if_pos h2, if_pos h2]
      · rw [if_neg h1, if_neg h2, if_neg h2, if_neg h1]
  | trans h₁ h₂ ih₁ ih₂ =>
    have hnd₂ := ((h₁.map Prod.fst).nodup_iff).mp hnd
    rw [ih₁ hnd, ih₂ hnd₂]

theorem sFlatOpt_enc_keys_nodup (root : Option XNodes) (hwf : wfO root) :
    ((((sFlatOpt root []).map encodeEntry)).map Prod.fst).Nodup := by
  have hsnd := sFlatOpt_nodup root [] hwf
  have hgood := sFlatOpt_good root [] hwf (by intro g hg; cases hg)
  rw [show ((sFlatOpt root []).map encodeEntry).map Prod.fst
      = ((sFlatOpt root []).map Prod.fst).map encodeKey by
    rw [List.map_map, List.map_map]
    rfl]
  refine List.Nodup.map_on ?_ hsnd
  intro x hx y hy hxy
  obtain ⟨ex, hex, rfl⟩ := List.mem_map.mp hx
  obtain ⟨ey, hey, rfl⟩ := List.mem_map.mp hy
  obtain ⟨h1, h2⟩ := encodeKey_inj ex.1.1 ey.1.1 ex.1.2 ey.1.2 (hgood ex hex) (hgood ey hey)
    (by obtain ⟨⟨a, b2⟩, c2⟩ := ex; obtain ⟨⟨a', b2'⟩, c2'⟩ := ey; exact hxy)
  obtain ⟨⟨a, b2⟩, c2⟩ := ex
  obtain ⟨⟨a', b2'⟩, c2'⟩ := ey
  simp only at h1 h2
  rw [h1, h2]

/-- **C5.** Round-trip: for every successfully parsed document (with the
parser-guaranteed well-formedness of names and attribute records, and no
explicitly empty element names), flattening the document, building the editable
tree from the same parsed element list, serializing that tree back to an XML
element structure and re-flattening yields a flat mapping that agrees with the
original flattening at every key — the same key set and the same value at each
key. -/
theorem flatten_roundtrip (root : Option XNodes) (b s b2 s2 : Nat)
    (hwf : wfO root) (hne : neO root) (k : String) :
    recordGet ((mapXmlToFlat (Except.ok (some (ofList (buildXmlFromEditable
      (buildEditableTree ((root.map XNodes.toList).getD []) "" ""))))) b2 s2).map) k
      = recordGet ((mapXmlToFlat (Except.ok root) b s).map) k := by
  have hneL : ∀ n ∈ (root.map XNodes.toList).getD [], neN n := by
    cases root with
    | none =>
      intro n hn
      exact absurd hn (List.not_mem_nil n)
    | some ns =>
      intro n hn
      exact neNs_toList ns hne n hn
  have hflat : sFlatOpt (some (ofList (buildXmlFromEditable
      (buildEditableTree ((root.map XNodes.toList).getD []) "" "")))) [] = sFlatOpt root [] := by
    rw [show sFlatOpt (some (ofList (buildXmlFromEditable
      (buildEditableTree ((root.map XNodes.toList).getD []) "" "")))) []
        = sFlat (ofList (buildXmlFromEditable
            (buildETGo ((((root.map XNodes.toList).getD []).map nodeSize).sum + 1)
              ((root.map XNodes.toList).getD []) "" "" []))) [] [] from rfl]
    rw [sFlat_roundtrip _ _ _ _ _ (Nat.lt_succ_self _) hneL [] []]
    cases root with
    | none => rfl
    | some ns =>
      rw [show ((Option.map XNodes.toList (some ns)).getD []) = ns.toList from rfl]
      rw [ofList_toList]
      rfl
  have hp2 := flattenLoop_entries_perm (some (ofList (buildXmlFromEditable
      (buildEditableTree ((root.map XNodes.toList).getD []) "" "")))) b2 s2
  have hp1 := flattenLoop_entries_perm root b s
  rw [hflat] at hp2
  have hencnd := sFlatOpt_enc_keys_nodup root hwf
  have hnd1 : (((loopGo b s (nodesSizeO root + 1)
      { stack := [⟨(root : Option XNodes).map XNodes.toList, []⟩], entries := [], processed := 0,
        lastEmit := 0, msgs := [(b, some "Parsing XML…")] }).entries).map Prod.fst).Nodup := ((hp1.map Prod.fst).nodup_iff).mpr hencnd
  have hnd2 : (((loopGo b2 s2 (nodesSizeO (some (ofList (buildXmlFromEditable
      (buildEditableTree ((root.map XNodes.toList).getD []) "" "")))) + 1)
      { stack := [⟨((some (ofList (buildXmlFromEditable
      (buildEditableTree ((root.map XNodes.toList).getD []) "" "")))) : Option XNodes).map XNodes.toList, []⟩], entries := [], processed := 0,
        lastEmit := 0, msgs := [(b2, some "Parsing XML…")] }).entries).map Prod.fst).Nodup := ((hp2.map Prod.fst).nodup_iff).mpr hencnd
  have hE : ((loopGo b2 s2 (nodesSizeO (some (ofList (buildXmlFromEditable
      (buildEditableTree ((root.map XNodes.toList).getD []) "" "")))) + 1)
      { stack := [⟨((some (ofList (buildXmlFromEditable
      (buildEditableTree ((root.map XNodes.toList).getD []) "" "")))) : Option XNodes).map XNodes.toList, []⟩], entries := [], processed := 0,
        lastEmit := 0, msgs := [(b2, some "Parsing XML…")] }).entries).Perm
      ((loopGo b s (nodesSizeO root + 1)
      { stack := [⟨(root : Option XNodes).map XNodes.toList, []⟩], entries := [], processed := 0,
        lastEmit := 0, msgs := [(b, some "Parsing XML…")] }).entries) := hp2.trans hp1.symm
  rw [show (mapXmlToFlat (Except.ok root) b s).map
      = buildRecord ((loopGo b s (nodesSizeO root + 1)
      { stack := [⟨(root : Option XNodes).map XNodes.toList, []⟩], entries := [], processed := 0,
        lastEmit := 0, msgs := [(b, some "Parsing XML…")] }).entries) from rfl]
  rw [show (mapXmlToFlat (Except.ok (some (ofList (buildXmlFromEditable
      (buildEditableTree ((root.map XNodes.toList).getD []) "" ""))))) b2 s2).map
      = buildRecord ((loopGo b2 s2 (nodesSizeO (some (ofList (buildXmlFromEditable
      (buildEditableTree ((root.map XNodes.toList).getD []) "" "")))) + 1)
      { stack := [⟨((some (ofList (buildXmlFromEditable
      (buildEditableTree ((root.map XNodes.toList).getD []) "" "")))) : Option XNodes).map XNodes.toList, []⟩], entries := [], processed := 0,
        lastEmit := 0, msgs := [(b2, some "Parsing XML…")] }).entries) from rfl]
  rw [buildRecord_eq _ hnd1, buildRecord_eq _ hnd2]
  exact recordGet_perm hE hnd2 k

/-- Witness for the round-trip statement on `rtDoc` at the attribute key
`a[1]/@id`, with both flatten calls at different progress windows. -/
theorem flatten_roundtrip_witness :
    wfO rtDoc ∧ neO rtDoc
    ∧ recordGet ((mapXmlToFlat (Except.ok (some (ofList (buildXmlFromEditable
        (buildEditableTree ((rtDoc.map XNodes.toList).getD []) "" ""))))) 0 45).map) "a[1]/@id"
      = recordGet ((mapXmlToFlat (Except.ok rtDoc) 10 35).map) "a[1]/@id" :=
  ⟨by simp only [rtDoc, ofList, wfO, wfNs, wfN, goodName]; decide,
   by simp only [rtDoc, ofList, neO, neNs, neN]; decide,
   flatten_roundtrip rtDoc 10 35 0 45
     (by simp only [rtDoc, ofList, wfO, wfNs, wfN, goodName]; decide)
     (by simp only [rtDoc, ofList, neO, neNs, neN]; decide) "a[1]/@id"⟩

/-- **C3** (counterexample).  The flattener drops CDATA content: on
`<a>x<![CDATA[y]]></a>` the extracted text is `x`, not the trimmed
concatenation `xy` of both children's literal content that the claim demands,
because the source reads `node.text`, which xml-js leaves undefined on cdata
nodes; the document's single `#text` entry carries `x` accordingly. -/
theorem extractText_cdata_dropped_counterexample :
    extractText (some (ofList [XNode.text (some "x"), XNode.cdata (some "y")])) = "x"
    ∧ claimedTextValue (ofList [XNode.text (some "x"), XNode.cdata (some "y")]) = "xy"
    ∧ extractText (some (ofList [XNode.text (some "x"), XNode.cdata (some "y")]))
        ≠ claimedTextValue (ofList [XNode.text (some "x"), XNode.cdata (some "y")])
    ∧ recordGet ((mapXmlToFlat (Except.ok cdDoc) 0 100).map) "a[1]/#text" = some "x" :=
  ⟨by decide, by decide, by decide, by decide⟩
